import Mathlib

/-!
Verification of the crosspoint-reader line-breaking and hyphenation core.

Words are modelled as lists of bytes (naturals below 256), codepoints as
naturals.  The C++ sources embedded here are:
  - lib/Epub/Epub/hyphenation/HyphenationCommon.cpp  (classifiers, trimming)
  - lib/Epub/Epub/hyphenation/EnglishHyphenator.cpp
  - lib/Epub/Epub/hyphenation/RussianHyphenator.cpp
  - lib/Epub/Epub/hyphenation/Hyphenator.cpp          (facade breakOffsets)
  - lib/Epub/Epub/Hyphenator.cpp                      (legacy splitWord engine)
  - lib/Epub/Epub/ParsedText.cpp                      (line breaking / layout)
Pixel measurement (GfxRenderer) is abstracted as a function argument.
-/

namespace Crosspoint

/-- Codepoint value together with the byte offset of its first encoded byte,
mirroring struct CodepointInfo. -/
structure CodepointInfo where
  value : ℕ
  byteOffset : ℕ
deriving DecidableEq, Repr

/-- One decoding step of the Utf8 helper: the scalar produced for lead byte b
and the number of additional bytes consumed from the remainder of the input. -/
def utf8Step (b : ℕ) (rest : List ℕ) : ℕ × ℕ :=
  if b < 0xC0 then (b, 0)
  else if b < 0xE0 then
    match rest with
    | b2 :: _ => ((b - 0xC0) * 64 + b2 % 64, 1)
    | [] => (b, 0)
  else if b < 0xF0 then
    match rest with
    | b2 :: b3 :: _ => ((b - 0xE0) * 4096 + (b2 % 64) * 64 + b3 % 64, 2)
    | _ => (b, rest.length)
  else if b < 0xF8 then
    match rest with
    | b2 :: b3 :: b4 :: _ =>
        ((b - 0xF0) * 262144 + (b2 % 64) * 4096 + (b3 % 64) * 64 + b4 % 64, 3)
    | _ => (b, rest.length)
  else (b, 0)

/-- Fuel-indexed decoding loop; the fuel only has to dominate the byte count. -/
def utf8DecodeAux : ℕ → List ℕ → ℕ → List CodepointInfo
  | 0, _, _ => []
  | _ + 1, [], _ => []
  | fuel + 1, b :: rest, off =>
    let s := utf8Step b rest
    ⟨s.1, off⟩ :: utf8DecodeAux fuel (rest.drop s.2) (off + 1 + s.2)

/-- Modelled from the spec: the Utf8 decoding helper (lib/Utf8, not under src/)
decodes standard UTF-8 sequences; a malformed lead byte degrades to a
single-byte scalar and scanning always advances by at least one byte. -/
def utf8Decode (l : List ℕ) (off : ℕ) : List CodepointInfo :=
  utf8DecodeAux l.length l off

/-- collectCodepoints from hyphenation/Hyphenator.cpp: decode the whole word. -/
def collectCodepoints (word : List ℕ) : List CodepointInfo :=
  utf8Decode word 0

/- ## Codepoint classification (HyphenationCommon.cpp) -/

def toLowerLatin (cp : ℕ) : ℕ :=
  if 65 ≤ cp ∧ cp ≤ 90 then cp - 65 + 97 else cp

def toLowerCyrillic (cp : ℕ) : ℕ :=
  if 0x0410 ≤ cp ∧ cp ≤ 0x042F then cp + 0x20
  else if cp = 0x0401 then 0x0451
  else cp

def isLatinLetter (cp : ℕ) : Bool :=
  (65 ≤ cp && cp ≤ 90) || (97 ≤ cp && cp ≤ 122)

def isLatinVowel (cp : ℕ) : Bool :=
  let c := toLowerLatin cp
  c == 97 || c == 101 || c == 105 || c == 111 || c == 117 || c == 121

def isLatinConsonant (cp : ℕ) : Bool :=
  isLatinLetter cp && !isLatinVowel cp

def isCyrillicLetter (cp : ℕ) : Bool :=
  0x0400 ≤ cp && cp ≤ 0x052F

def isCyrillicVowel (cp : ℕ) : Bool :=
  let c := toLowerCyrillic cp
  c == 0x0430 || c == 0x0435 || c == 0x0451 || c == 0x0438 || c == 0x043E ||
  c == 0x0443 || c == 0x044B || c == 0x044D || c == 0x044E || c == 0x044F

def isCyrillicConsonant (cp : ℕ) : Bool :=
  isCyrillicLetter cp && !isCyrillicVowel cp

def isAlphabetic (cp : ℕ) : Bool :=
  isLatinLetter cp || isCyrillicLetter cp

def isVowel (cp : ℕ) : Bool :=
  isLatinVowel cp || isCyrillicVowel cp

def isPunctuation (cp : ℕ) : Bool :=
  cp == 46 || cp == 44 || cp == 33 || cp == 63 || cp == 59 || cp == 58 ||
  cp == 34 || cp == 39 || cp == 41 || cp == 40 ||
  cp == 0x00AB || cp == 0x00BB || cp == 0x2018 || cp == 0x2019 ||
  cp == 0x201C || cp == 0x201D ||
  cp == 91 || cp == 93 || cp == 123 || cp == 125 || cp == 47 ||
  cp == 0x203A || cp == 0x2026

/-- trimSurroundingPunctuation: erase punctuation codepoints from the front,
then from the back, of the codepoint vector. -/
def trimSurroundingPunctuation (cps : List CodepointInfo) : List CodepointInfo :=
  (((cps.dropWhile fun c => isPunctuation c.value).reverse.dropWhile
    fun c => isPunctuation c.value).reverse)

inductive Script where
  | Latin
  | Cyrillic
  | Mixed
deriving DecidableEq, Repr

def detectScript (cps : List CodepointInfo) : Script :=
  let hasLatin := cps.any fun c => isLatinLetter c.value
  let hasCyrillic := cps.any fun c => !isLatinLetter c.value && isCyrillicLetter c.value
  if hasLatin && !hasCyrillic then Script.Latin
  else if !hasLatin && hasCyrillic then Script.Cyrillic
  else Script.Mixed

/- ## Basic decode facts -/

theorem utf8Step_le (b : ℕ) (rest : List ℕ) : (utf8Step b rest).2 ≤ rest.length := by
  unfold utf8Step
  split_ifs <;> rcases rest with _ | ⟨b2, _ | ⟨b3, _ | ⟨b4, r⟩⟩⟩ <;> simp

theorem utf8DecodeAux_fuel (fuel : ℕ) (l : List ℕ) (off : ℕ) (h : l.length ≤ fuel) :
    utf8DecodeAux fuel l off = utf8Decode l off := by
  have key : ∀ n (l : List ℕ), l.length ≤ n → ∀ fuel, l.length ≤ fuel → ∀ off,
      utf8DecodeAux fuel l off = utf8DecodeAux l.length l off := by
    intro n
    induction n with
    | zero =>
      intro l hl fuel hf off
      have : l = [] := List.length_eq_zero.mp (Nat.le_zero.mp hl)
      subst this
      cases fuel <;> rfl
    | succ n ih =>
      intro l hl fuel hf off
      rcases l with _ | ⟨b, rest⟩
      · cases fuel <;> rfl
      · obtain ⟨fuel', rfl⟩ : ∃ f', fuel = f' + 1 := ⟨fuel - 1, by simp at hf; omega⟩
        have hk := utf8Step_le b rest
        simp only [utf8DecodeAux, List.length_cons]
        congr 1
        have hd : (rest.drop (utf8Step b rest).2).length ≤ n := by
          simp at hl ⊢
          omega
        rw [ih _ hd fuel' (by simp at hf ⊢; omega) _,
          ih _ hd rest.length (by simp) _]
  exact key l.length l le_rfl fuel h off

theorem utf8Decode_cons (b : ℕ) (rest : List ℕ) (off : ℕ) :
    utf8Decode (b :: rest) off =
      ⟨(utf8Step b rest).1, off⟩ ::
        utf8Decode (rest.drop (utf8Step b rest).2) (off + 1 + (utf8Step b rest).2) := by
  have hk := utf8Step_le b rest
  unfold utf8Decode
  simp only [List.length_cons, utf8DecodeAux]
  rw [utf8DecodeAux_fuel _ _ _ (by simp)]
  rfl

/-- Recursion principle following the stepwise structure of the decoder. -/
theorem utf8Decode_rec (P : List ℕ → ℕ → Prop) (hnil : ∀ off, P [] off)
    (hcons : ∀ b rest off,
      P (rest.drop (utf8Step b rest).2) (off + 1 + (utf8Step b rest).2) → P (b :: rest) off) :
    ∀ l off, P l off := by
  have key : ∀ n (l : List ℕ) off, l.length ≤ n → P l off := by
    intro n
    induction n with
    | zero =>
      intro l off hl
      have : l = [] := List.length_eq_zero.mp (Nat.le_zero.mp hl)
      simpa [this] using hnil off
    | succ n ih =>
      intro l off hl
      rcases l with _ | ⟨b, rest⟩
      · exact hnil off
      · refine hcons b rest off (ih _ _ ?_)
        have := utf8Step_le b rest
        simp at hl ⊢
        omega
  intro l off
  exact key l.length l off le_rfl

theorem utf8Decode_byteOffset_bounds (l : List ℕ) (off : ℕ) :
    ∀ c ∈ utf8Decode l off, off ≤ c.byteOffset ∧ c.byteOffset < off + l.length := by
  induction l, off using utf8Decode_rec with
  | hnil off => simp [utf8Decode, utf8DecodeAux]
  | hcons b rest off ih =>
    intro c hc
    rw [utf8Decode_cons] at hc
    rcases List.mem_cons.mp hc with rfl | hc
    · simp
    · have hb := ih c hc
      have hk := utf8Step_le b rest
      simp [List.length_drop] at hb
      simp
      omega

theorem utf8Decode_length_le (l : List ℕ) (off : ℕ) :
    (utf8Decode l off).length ≤ l.length := by
  induction l, off using utf8Decode_rec with
  | hnil off => simp [utf8Decode, utf8DecodeAux]
  | hcons b rest off ih =>
    rw [utf8Decode_cons]
    have hk := utf8Step_le b rest
    simp [List.length_drop] at ih ⊢
    omega

/-- The decoded byte offsets are strictly increasing. -/
theorem utf8Decode_pairwise (l : List ℕ) (off : ℕ) :
    (utf8Decode l off).Pairwise (fun a b => a.byteOffset < b.byteOffset) := by
  induction l, off using utf8Decode_rec with
  | hnil off => simp [utf8Decode, utf8DecodeAux]
  | hcons b rest off ih =>
    rw [utf8Decode_cons]
    refine List.Pairwise.cons ?_ ih
    intro c hc
    have := (utf8Decode_byteOffset_bounds _ _ c hc).1
    simp
    omega

/-- The first decoded codepoint sits at the starting offset. -/
theorem utf8Decode_head_offset (b : ℕ) (rest : List ℕ) (off : ℕ) :
    ∃ v tl, utf8Decode (b :: rest) off = ⟨v, off⟩ :: tl := by
  rw [utf8Decode_cons]
  exact ⟨_, _, rfl⟩

/-- The step function only inspects the bytes it actually consumes, so any
extension past them is irrelevant. -/
theorem utf8Step_stable (b : ℕ) (rest : List ℕ)
    (h : (utf8Step b rest).2 < rest.length) (n : ℕ) (hn : (utf8Step b rest).2 ≤ n)
    (X : List ℕ) : utf8Step b (rest.take n ++ X) = utf8Step b rest := by
  rcases Nat.lt_or_ge b 0xC0 with h1 | h1
  · simp [utf8Step, h1]
  rcases Nat.lt_or_ge b 0xE0 with h2 | h2
  · rcases rest with _ | ⟨b2, r⟩
    · simp [utf8Step, Nat.not_lt.mpr h1, h2] at h
    · have hk : (utf8Step b (b2 :: r)).2 = 1 := by
        simp [utf8Step, Nat.not_lt.mpr h1, h2]
      rw [hk] at hn
      obtain ⟨n', rfl⟩ : ∃ n', n = n' + 1 := ⟨n - 1, by omega⟩
      simp [utf8Step, Nat.not_lt.mpr h1, h2, List.take_succ_cons]
  rcases Nat.lt_or_ge b 0xF0 with h3 | h3
  · rcases rest with _ | ⟨b2, _ | ⟨b3, r⟩⟩
    · simp [utf8Step, Nat.not_lt.mpr h1, Nat.not_lt.mpr h2, h3] at h
    · simp [utf8Step, Nat.not_lt.mpr h1, Nat.not_lt.mpr h2, h3] at h
    · have hk : (utf8Step b (b2 :: b3 :: r)).2 = 2 := by
        simp [utf8Step, Nat.not_lt.mpr h1, Nat.not_lt.mpr h2, h3]
      rw [hk] at hn
      obtain ⟨n', rfl⟩ : ∃ n', n = n' + 2 := ⟨n - 2, by omega⟩
      simp [utf8Step, Nat.not_lt.mpr h1, Nat.not_lt.mpr h2, h3, List.take_succ_cons]
  rcases Nat.lt_or_ge b 0xF8 with h4 | h4
  · rcases rest with _ | ⟨b2, _ | ⟨b3, _ | ⟨b4, r⟩⟩⟩
    · simp [utf8Step, Nat.not_lt.mpr h1, Nat.not_lt.mpr h2, Nat.not_lt.mpr h3, h4] at h
    · simp [utf8Step, Nat.not_lt.mpr h1, Nat.not_lt.mpr h2, Nat.not_lt.mpr h3, h4] at h
    · simp [utf8Step, Nat.not_lt.mpr h1, Nat.not_lt.mpr h2, Nat.not_lt.mpr h3, h4] at h
    · have hk : (utf8Step b (b2 :: b3 :: b4 :: r)).2 = 3 := by
        simp [utf8Step, Nat.not_lt.mpr h1, Nat.not_lt.mpr h2, Nat.not_lt.mpr h3, h4]
      rw [hk] at hn
      obtain ⟨n', rfl⟩ : ∃ n', n = n' + 3 := ⟨n - 3, by omega⟩
      simp [utf8Step, Nat.not_lt.mpr h1, Nat.not_lt.mpr h2, Nat.not_lt.mpr h3, h4,
        List.take_succ_cons]
  · simp [utf8Step, Nat.not_lt.mpr h1, Nat.not_lt.mpr h2, Nat.not_lt.mpr h3, Nat.not_lt.mpr h4]

/-- Splitting the byte string at the start offset of the i-th decoded
codepoint splits the decode; whatever follows decodes independently. -/
theorem utf8Decode_split (l : List ℕ) (off : ℕ) :
    ∀ i (h : i < (utf8Decode l off).length),
      (∀ X, utf8Decode (l.take (((utf8Decode l off).get ⟨i, h⟩).byteOffset - off) ++ X) off
          = (utf8Decode l off).take i ++ utf8Decode X ((utf8Decode l off).get ⟨i, h⟩).byteOffset) ∧
      utf8Decode (l.drop (((utf8Decode l off).get ⟨i, h⟩).byteOffset - off))
          ((utf8Decode l off).get ⟨i, h⟩).byteOffset = (utf8Decode l off).drop i := by
  induction l, off using utf8Decode_rec with
  | hnil off =>
    intro i h
    simp [utf8Decode, utf8DecodeAux] at h
  | hcons b rest off ih =>
    intro i h
    have hshape := utf8Decode_cons b rest off
    set k := (utf8Step b rest).2 with hkdef
    rcases i with _ | j
    · have hbo : ((utf8Decode (b :: rest) off).get ⟨0, h⟩).byteOffset = off := by
        rw [List.get_of_eq hshape]
        rfl
      refine ⟨fun X => ?_, ?_⟩
      · rw [hbo]
        simp
      · rw [hbo]
        simp
    · have hlen : j < (utf8Decode (rest.drop k) (off + 1 + k)).length := by
        rw [hshape] at h
        simpa using h
      have hbo : (utf8Decode (b :: rest) off).get ⟨j + 1, h⟩
          = (utf8Decode (rest.drop k) (off + 1 + k)).get ⟨j, hlen⟩ := by
        rw [List.get_of_eq hshape]
        simp
      set c := (utf8Decode (rest.drop k) (off + 1 + k)).get ⟨j, hlen⟩ with hcdef
      rw [hbo]
      have hcmem : c ∈ utf8Decode (rest.drop k) (off + 1 + k) := by
        rw [hcdef]
        exact List.get_mem _ _ _
      obtain ⟨hc1, hc2⟩ := utf8Decode_byteOffset_bounds _ _ c hcmem
      have hkle : k ≤ rest.length := utf8Step_le b rest
      have hklt : k < rest.length := by
        by_contra hkge
        have hnil2 : rest.drop k = [] := List.drop_eq_nil_of_le (by omega)
        rw [hnil2] at hlen
        simp [utf8Decode, utf8DecodeAux] at hlen
      set o' := c.byteOffset - (off + 1 + k) with ho'
      have hoff : c.byteOffset - off = (k + o') + 1 := by omega
      have hoffc : off + 1 + k + o' = c.byteOffset := by omega
      obtain ⟨ihA, ihB⟩ := ih j hlen
      rw [← hcdef] at ihA ihB
      rw [← ho'] at ihA ihB
      have htakelen : (rest.take (k + o')).length = k + o' ∨ rest.take (k + o') = rest := by
        rcases Nat.lt_or_ge (k + o') rest.length with hlt | hge
        · left
          rw [List.length_take]
          omega
        · right
          exact List.take_of_length_le hge
      have htake : ∀ X : List ℕ,
          ((b :: rest).take (c.byteOffset - off)) ++ X = b :: (rest.take (k + o') ++ X) := by
        intro X
        rw [hoff, List.take_succ_cons]
        simp
      have hstep : ∀ X : List ℕ,
          utf8Step b (rest.take (k + o') ++ X) = utf8Step b rest := by
        intro X
        exact utf8Step_stable b rest (by omega) (k + o') (by omega) X
      have hsplittake : ∀ Y : List ℕ, (rest.take (k + o') ++ Y).drop k
          = (rest.drop k).take o' ++ Y := by
        intro Y
        rw [List.take_add]
        have hlenk : (rest.take k).length = k := by
          rw [List.length_take]
          omega
        rw [List.append_assoc, List.drop_left' hlenk]
      refine ⟨fun X => ?_, ?_⟩
      · rw [htake X, utf8Decode_cons, hstep X, ← hkdef, hsplittake X]
        rw [ihA X, hshape]
        simp
      · have hdropl : (b :: rest).drop (c.byteOffset - off) = (rest.drop k).drop o' := by
          rw [hoff, List.drop_succ_cons, List.drop_drop]
        rw [hdropl, ihB, hshape]
        simp

/-- Decoding at a shifted offset shifts every byte offset and keeps values. -/
theorem utf8Decode_shift (l : List ℕ) (off : ℕ) :
    utf8Decode l off = (utf8Decode l 0).map fun c => ⟨c.value, c.byteOffset + off⟩ := by
  have key : ∀ n (l : List ℕ), l.length ≤ n → ∀ off : ℕ,
      utf8Decode l off = (utf8Decode l 0).map fun c => ⟨c.value, c.byteOffset + off⟩ := by
    intro n
    induction n with
    | zero =>
      intro l hl off
      have : l = [] := List.length_eq_zero.mp (Nat.le_zero.mp hl)
      subst this
      rfl
    | succ n ih =>
      intro l hl off
      rcases l with _ | ⟨b, rest⟩
      · rfl
      · rw [utf8Decode_cons, utf8Decode_cons]
        set k := (utf8Step b rest).2 with hk
        have hd : (rest.drop k).length ≤ n := by
          have := utf8Step_le b rest
          simp at hl ⊢
          omega
        rw [ih _ hd (off + 1 + k), ih _ hd (0 + 1 + k)]
        simp only [List.map_cons, List.map_map]
        congr 1
        · simp
        · refine List.map_congr_left ?_
          intro a _
          simp [Function.comp]
          omega
  exact key l.length l le_rfl off

/- ## Sorting and adjacent deduplication (std sort + std unique) -/

def insertSorted (x : ℕ) : List ℕ → List ℕ
  | [] => [x]
  | y :: ys => if x ≤ y then x :: y :: ys else y :: insertSorted x ys

def sortNat : List ℕ → List ℕ
  | [] => []
  | x :: xs => insertSorted x (sortNat xs)

def dedupAdj : List ℕ → List ℕ
  | [] => []
  | [a] => [a]
  | a :: b :: r => if a = b then dedupAdj (b :: r) else a :: dedupAdj (b :: r)

theorem mem_insertSorted (x y : ℕ) (l : List ℕ) :
    y ∈ insertSorted x l ↔ y = x ∨ y ∈ l := by
  induction l with
  | nil => simp [insertSorted]
  | cons z zs ih =>
    unfold insertSorted
    split_ifs <;> simp [ih] <;> tauto

theorem mem_sortNat (y : ℕ) (l : List ℕ) : y ∈ sortNat l ↔ y ∈ l := by
  induction l with
  | nil => simp [sortNat]
  | cons z zs ih => simp [sortNat, mem_insertSorted, ih]

theorem pairwise_insertSorted (x : ℕ) (l : List ℕ) (h : l.Pairwise (· ≤ ·)) :
    (insertSorted x l).Pairwise (· ≤ ·) := by
  induction l with
  | nil => simp [insertSorted]
  | cons z zs ih =>
    unfold insertSorted
    rcases List.pairwise_cons.mp h with ⟨hz, hzs⟩
    split_ifs with hx
    · refine List.pairwise_cons.mpr ⟨?_, h⟩
      intro a ha
      rcases List.mem_cons.mp ha with rfl | ha
      · exact hx
      · exact le_trans hx (hz a ha)
    · refine List.pairwise_cons.mpr ⟨?_, ih hzs⟩
      intro a ha
      rcases (mem_insertSorted x a zs).mp ha with rfl | ha
      · omega
      · exact hz a ha

theorem pairwise_sortNat (l : List ℕ) : (sortNat l).Pairwise (· ≤ ·) := by
  induction l with
  | nil => simp [sortNat]
  | cons z zs ih => exact pairwise_insertSorted z _ ih

theorem mem_dedupAdj (y : ℕ) (l : List ℕ) : y ∈ dedupAdj l ↔ y ∈ l := by
  induction l with
  | nil => simp [dedupAdj]
  | cons a r ih =>
    rcases r with _ | ⟨b, r'⟩
    · simp [dedupAdj]
    · unfold dedupAdj
      split_ifs with hab
      · subst hab
        rw [ih]
        simp
      · rw [List.mem_cons, ih]
        simp

theorem pairwise_dedupAdj (l : List ℕ) (h : l.Pairwise (· ≤ ·)) :
    (dedupAdj l).Pairwise (· < ·) := by
  induction l with
  | nil => simp [dedupAdj]
  | cons a r ih =>
    rcases r with _ | ⟨b, r'⟩
    · simp [dedupAdj]
    · rcases List.pairwise_cons.mp h with ⟨ha, hr⟩
      unfold dedupAdj
      split_ifs with hab
      · exact ih hr
      · refine List.pairwise_cons.mpr ⟨?_, ih hr⟩
        intro c hc
        have hc' := (mem_dedupAdj c (b :: r')).mp hc
        have := ha c hc'
        have hab' : a ≤ b := ha b (by simp)
        rcases List.mem_cons.mp hc' with rfl | hc''
        · omega
        · rcases List.pairwise_cons.mp hr with ⟨hb, _⟩
          have := hb c hc''
          omega

theorem sortNat_of_pairwise_lt (l : List ℕ) (h : l.Pairwise (· < ·)) : sortNat l = l := by
  induction l with
  | nil => rfl
  | cons a r ih =>
    rcases List.pairwise_cons.mp h with ⟨ha, hr⟩
    unfold sortNat
    rw [ih hr]
    rcases r with _ | ⟨b, r'⟩
    · rfl
    · unfold insertSorted
      rw [if_pos (le_of_lt (ha b (by simp)))]

theorem dedupAdj_of_pairwise_lt (l : List ℕ) (h : l.Pairwise (· < ·)) : dedupAdj l = l := by
  induction l with
  | nil => rfl
  | cons a r ih =>
    rcases List.pairwise_cons.mp h with ⟨ha, hr⟩
    rcases r with _ | ⟨b, r'⟩
    · rfl
    · unfold dedupAdj
      rw [if_neg (by have := ha b (by simp); omega), ih hr]

/-- isExplicitHyphen from hyphenation/Hyphenator.cpp. -/
def isExplicitHyphen (cp : ℕ) : Bool :=
  cp == 45 || cp == 0x2010

/- ## Small classifier facts -/

theorem isPunctuation_not_alpha (cp : ℕ) (h : isPunctuation cp = true) :
    isAlphabetic cp = false := by
  simp [isPunctuation] at h
  simp [isAlphabetic, isLatinLetter, isCyrillicLetter]
  omega

theorem isPunctuation_not_hyphen (cp : ℕ) (h : isPunctuation cp = true) :
    isExplicitHyphen cp = false := by
  simp [isPunctuation] at h
  simp [isExplicitHyphen]
  omega


/- ## English hyphenation engine (hyphenation/EnglishHyphenator.cpp) -/

/-- Indexed access to a codepoint value, mirroring cps[i].value. -/
def cpVal (cps : List CodepointInfo) (i : ℕ) : ℕ :=
  (cps.getD i ⟨0, 0⟩).value

def lowerLatinChar (cp : ℕ) : ℕ :=
  if isLatinLetter cp then toLowerLatin cp else 0

def isEnglishApproximantChar (c : ℕ) : Bool :=
  c == 108 || c == 114 || c == 119 || c == 121

def isEnglishStopChar (c : ℕ) : Bool :=
  c == 112 || c == 98 || c == 116 || c == 100 || c == 107 || c == 103 || c == 99 || c == 113

def isEnglishFricativeChar (c : ℕ) : Bool :=
  c == 102 || c == 118 || c == 115 || c == 122 || c == 104 || c == 120

def isEnglishDiphthong (first second : ℕ) : Bool :=
  if !(isLatinLetter first && isLatinLetter second) then false
  else
    let f := toLowerLatin first
    let s := toLowerLatin second
    if f == 97 then s == 105 || s == 121 || s == 117
    else if f == 101 then s == 97 || s == 101 || s == 105 || s == 111 || s == 117 || s == 121
    else if f == 105 then s == 101 || s == 117 || s == 97
    else if f == 111 then s == 97 || s == 101 || s == 105 || s == 111 || s == 117 || s == 121
    else if f == 117 then s == 105 || s == 97 || s == 101
    else false

def isValidEnglishOnsetBigram (firstCp secondCp : ℕ) : Bool :=
  let first := lowerLatinChar firstCp
  let second := lowerLatinChar secondCp
  if first == 0 || second == 0 then false
  else if (first == 99 && second == 104) || (first == 115 && second == 104) ||
      (first == 116 && second == 104) || (first == 112 && second == 104) ||
      (first == 119 && second == 104) || (first == 119 && second == 114) ||
      (first == 107 && second == 110) || (first == 103 && second == 110) ||
      (first == 112 && second == 115) || (first == 112 && second == 116) ||
      (first == 112 && second == 110) || (first == 114 && second == 104) then true
  else if isEnglishStopChar first && isEnglishApproximantChar second then true
  else if isEnglishFricativeChar first && isEnglishApproximantChar second then true
  else if first == 115 && (second == 112 || second == 116 || second == 107 || second == 109 ||
      second == 110 || second == 102 || second == 108 || second == 119 || second == 99) then true
  else if second == 121 && (first == 112 || first == 98 || first == 116 || first == 100 ||
      first == 102 || first == 107 || first == 103 || first == 104 || first == 109 ||
      first == 110 || first == 108 || first == 115) then true
  else false

def isValidEnglishOnsetTrigram (firstCp secondCp thirdCp : ℕ) : Bool :=
  let first := lowerLatinChar firstCp
  let second := lowerLatinChar secondCp
  let third := lowerLatinChar thirdCp
  if first == 0 || second == 0 || third == 0 then false
  else if first == 115 &&
      ((second == 112 && (third == 108 || third == 114 || third == 119)) ||
       (second == 116 && (third == 114 || third == 119 || third == 121)) ||
       (second == 107 && (third == 108 || third == 114 || third == 119)) ||
       (second == 99 && (third == 108 || third == 114)) ||
       (second == 102 && third == 114) ||
       (second == 104 && third == 114)) then true
  else if first == 116 && second == 104 && third == 114 then true
  else false

def englishClusterIsValidOnset (cps : List CodepointInfo) (s e : ℕ) : Bool :=
  if s ≥ e then false
  else if !((List.range (e - s)).all fun t =>
      let cp := cpVal cps (s + t)
      lowerLatinChar cp != 0 && (isLatinConsonant cp || lowerLatinChar cp == 121)) then false
  else if e - s == 1 then true
  else if e - s == 2 then isValidEnglishOnsetBigram (cpVal cps s) (cpVal cps (s + 1))
  else if e - s == 3 then
    isValidEnglishOnsetTrigram (cpVal cps s) (cpVal cps (s + 1)) (cpVal cps (s + 2))
  else false

/-- The descending scan of englishOnsetLength, from a given candidate length. -/
def englishOnsetLengthGo (cps : List CodepointInfo) (e : ℕ) : ℕ → ℕ
  | 0 => 1
  | len + 1 =>
    if englishClusterIsValidOnset cps (e - (len + 1)) e then len + 1
    else englishOnsetLengthGo cps e len

def englishOnsetLength (cps : List CodepointInfo) (s e : ℕ) : ℕ :=
  if e - s = 0 then 0 else englishOnsetLengthGo cps e (min 3 (e - s))

def nextToApostrophe (cps : List CodepointInfo) (i : ℕ) : Bool :=
  if i == 0 || i ≥ cps.length then false
  else cpVal cps (i - 1) == 39 || cpVal cps i == 39

def englishSegmentHasVowel (cps : List CodepointInfo) (s e : ℕ) : Bool :=
  if s ≥ e || s ≥ cps.length then false
  else (List.range (min e cps.length - s)).any fun t => isLatinVowel (cpVal cps (s + t))

def lowercaseLatinWord (cps : List CodepointInfo) : List ℕ :=
  cps.map fun c => lowerLatinChar c.value

def ENGLISH_PREFIXES : List (List ℕ) :=
  [[97, 110, 116, 105],
   [97, 117, 116, 111],
   [99, 111, 117, 110, 116, 101, 114],
   [100, 101],
   [100, 105, 115],
   [104, 121, 112, 101, 114],
   [105, 110, 116, 101, 114],
   [109, 105, 99, 114, 111],
   [109, 105, 115],
   [109, 111, 110, 111],
   [109, 117, 108, 116, 105],
   [110, 111, 110],
   [111, 118, 101, 114],
   [112, 111, 115, 116],
   [112, 114, 101],
   [112, 114, 111],
   [114, 101],
   [115, 117, 98],
   [115, 117, 112, 101, 114],
   [116, 114, 97, 110, 115]]

def ENGLISH_SUFFIXES : List (List ℕ) :=
  [[97, 98, 108, 101],
   [105, 98, 108, 101],
   [105, 110, 103],
   [105, 110, 103, 115],
   [101, 100],
   [101, 114],
   [101, 114, 115],
   [101, 115, 116],
   [102, 117, 108],
   [104, 111, 111, 100],
   [108, 101, 115, 115],
   [108, 101, 115, 115, 108, 121],
   [108, 121],
   [109, 101, 110, 116],
   [109, 101, 110, 116, 115],
   [110, 101, 115, 115],
   [111, 117, 115],
   [116, 105, 111, 110],
   [115, 105, 111, 110],
   [119, 97, 114, 100],
   [119, 97, 114, 100, 115],
   [115, 104, 105, 112],
   [115, 104, 105, 112, 115],
   [121]]

def englishMorphOk (cps : List CodepointInfo) (bi : ℕ) : Bool :=
  2 ≤ bi && 2 ≤ cps.length - bi &&
  englishSegmentHasVowel cps 0 bi && englishSegmentHasVowel cps bi cps.length &&
  !nextToApostrophe cps bi

def englishMorphologyBreaks (cps : List CodepointInfo) (lowerWord : List ℕ) : List ℕ :=
  if cps.length < 4 then []
  else
    (ENGLISH_PREFIXES.filterMap fun p =>
      if p.length ≠ 0 && p.length < cps.length && decide (p.isPrefixOf lowerWord) &&
          englishMorphOk cps p.length
      then some p.length else none) ++
    (ENGLISH_SUFFIXES.filterMap fun sfx =>
      if sfx.length ≠ 0 && sfx.length < cps.length &&
          decide (sfx.isPrefixOf (lowerWord.drop (cps.length - sfx.length))) &&
          englishMorphOk cps (cps.length - sfx.length)
      then some (cps.length - sfx.length) else none)

def englishBreakIndexes (cps : List CodepointInfo) : List ℕ :=
  if cps.length < 4 then []
  else
    let lowerWord := lowercaseLatinWord cps
    let vp := (List.range cps.length).filter fun i => isLatinVowel (cpVal cps i)
    if vp.length < 2 then []
    else
      let pairCands := (vp.zip vp.tail).filterMap fun pr =>
        if pr.2 - pr.1 == 1 then
          if !isEnglishDiphthong (cpVal cps pr.1) (cpVal cps pr.2) && 2 ≤ pr.2 &&
              2 ≤ cps.length - pr.2 && !nextToApostrophe cps pr.2
          then some pr.2 else none
        else
          let bi := pr.2 - englishOnsetLength cps (pr.1 + 1) pr.2
          if 2 ≤ bi && 2 ≤ cps.length - bi && !nextToApostrophe cps bi
          then some bi else none
      dedupAdj (sortNat (pairCands ++ englishMorphologyBreaks cps lowerWord))

/- ## Russian hyphenation engine (hyphenation/RussianHyphenator.cpp) -/

def lowercaseCyrillicWord (cps : List CodepointInfo) : List ℕ :=
  cps.map fun c => if isCyrillicLetter c.value then toLowerCyrillic c.value else c.value

def russianSegmentHasVowel (cps : List CodepointInfo) (s e : ℕ) : Bool :=
  if s ≥ cps.length then false
  else (List.range (min e cps.length - s)).any fun t => isCyrillicVowel (cpVal cps (s + t))

def exposesLeadingDoubleConsonant (cps : List CodepointInfo) (i : ℕ) : Bool :=
  if i + 1 ≥ cps.length then false
  else
    let first := cpVal cps i
    let second := cpVal cps (i + 1)
    if !isCyrillicConsonant first || !isCyrillicConsonant second then false
    else if toLowerCyrillic first ≠ toLowerCyrillic second then false
    else (decide (0 < i) && isCyrillicVowel (cpVal cps (i - 1))) &&
      (decide (i + 2 < cps.length) && isCyrillicVowel (cpVal cps (i + 2)))

def exposesTrailingDoubleConsonant (cps : List CodepointInfo) (i : ℕ) : Bool :=
  if i < 2 then false
  else
    let last := cpVal cps (i - 1)
    let prev := cpVal cps (i - 2)
    if !isCyrillicConsonant last || !isCyrillicConsonant prev then false
    else if toLowerCyrillic last ≠ toLowerCyrillic prev then false
    else (decide (3 ≤ i) && isCyrillicVowel (cpVal cps (i - 3))) &&
      (decide (i < cps.length) && isCyrillicVowel (cpVal cps i))

def violatesDoubleConsonantRule (cps : List CodepointInfo) (i : ℕ) : Bool :=
  exposesLeadingDoubleConsonant cps i || exposesTrailingDoubleConsonant cps i

def isSoftSign (cp : ℕ) : Bool := toLowerCyrillic cp == 0x44C

def isHardSign (cp : ℕ) : Bool := toLowerCyrillic cp == 0x44A

def isSoftOrHardSign (cp : ℕ) : Bool := isSoftSign cp || isHardSign cp

def isCyrillicShortI (cp : ℕ) : Bool := toLowerCyrillic cp == 0x439

def isCyrillicYeru (cp : ℕ) : Bool := toLowerCyrillic cp == 0x44B

def isRussianPrefixConsonant (cp : ℕ) : Bool :=
  let c := toLowerCyrillic cp
  c == 0x432 || c == 0x437 || c == 0x441

def isRussianSibilant (cp : ℕ) : Bool :=
  let c := toLowerCyrillic cp
  c == 0x437 || c == 0x441 || c == 0x436 || c == 0x448 || c == 0x449 || c == 0x447 || c == 0x446

def isRussianStop (cp : ℕ) : Bool :=
  let c := toLowerCyrillic cp
  c == 0x431 || c == 0x433 || c == 0x434 || c == 0x43F || c == 0x442 || c == 0x43A

def russianSonority (cp : ℕ) : ℕ :=
  let c := toLowerCyrillic cp
  if c == 0x43B || c == 0x440 || c == 0x439 then 4
  else if c == 0x43C || c == 0x43D then 3
  else if c == 0x432 || c == 0x437 || c == 0x436 then 2
  else if c == 0x444 || c == 0x441 || c == 0x448 || c == 0x449 || c == 0x447 ||
      c == 0x446 || c == 0x445 then 1
  else if c == 0x431 || c == 0x433 || c == 0x434 || c == 0x43F || c == 0x442 || c == 0x43A then 0
  else 1

def russianClusterIsValidOnset (cps : List CodepointInfo) (s e : ℕ) : Bool :=
  if s ≥ e then false
  else if !((List.range (e - s)).all fun t =>
      let cp := cpVal cps (s + t)
      isCyrillicConsonant cp && !isSoftOrHardSign cp) then false
  else if e - s == 1 then true
  else (List.range (e - s - 1)).all fun t =>
    let cur := cpVal cps (s + t)
    let nxt := cpVal cps (s + t + 1)
    if russianSonority cur > russianSonority nxt then
      (t == 0 && isRussianPrefixConsonant cur) || (isRussianSibilant cur && isRussianStop nxt)
    else true

def russianOnsetLengthGo (cps : List CodepointInfo) (e : ℕ) : ℕ → ℕ
  | 0 => 1
  | len + 1 =>
    if russianClusterIsValidOnset cps (e - (len + 1)) e then len + 1
    else russianOnsetLengthGo cps e len

def russianOnsetLength (cps : List CodepointInfo) (s e : ℕ) : ℕ :=
  if e - s = 0 then 0 else russianOnsetLengthGo cps e (min 4 (e - s))

def doubleConsonantSplit (cps : List CodepointInfo) (s e : ℕ) : Option ℕ :=
  (List.range (e - s - 1)).findSome? fun t =>
    let left := cpVal cps (s + t)
    let right := cpVal cps (s + t + 1)
    if isCyrillicConsonant left && toLowerCyrillic left == toLowerCyrillic right &&
        !isSoftOrHardSign right
    then some (s + t + 1) else none

def beginsWithForbiddenSuffix (cps : List CodepointInfo) (i : ℕ) : Bool :=
  if i ≥ cps.length then true
  else
    let cp := cpVal cps i
    isSoftOrHardSign cp || isCyrillicShortI cp || isCyrillicYeru cp

def russianBreakAllowed (cps : List CodepointInfo) (bi : ℕ) : Bool :=
  if bi == 0 || bi ≥ cps.length then false
  else if bi < 2 || cps.length - bi < 2 then false
  else if !russianSegmentHasVowel cps 0 bi || !russianSegmentHasVowel cps bi cps.length then false
  else if beginsWithForbiddenSuffix cps bi then false
  else if violatesDoubleConsonantRule cps bi then false
  else true

def nextToSoftSign (cps : List CodepointInfo) (i : ℕ) : Bool :=
  if i == 0 || i ≥ cps.length then false
  else isSoftOrHardSign (cpVal cps (i - 1)) || isSoftOrHardSign (cpVal cps i)

def RUSSIAN_PREFIXES : List (List ℕ) :=
  [[0x431, 0x435, 0x437], [0x440, 0x430, 0x437], [0x43F, 0x43E, 0x434],
   [0x43D, 0x430, 0x434], [0x43F, 0x435, 0x440, 0x435],
   [0x441, 0x432, 0x435, 0x440, 0x445], [0x43C, 0x435, 0x436],
   [0x441, 0x443, 0x43F, 0x435, 0x440], [0x43F, 0x440, 0x435, 0x434],
   [0x441, 0x430, 0x43C, 0x43E], [0x43E, 0x431, 0x43E],
   [0x43F, 0x440, 0x43E, 0x442, 0x438, 0x432]]

def RUSSIAN_SUFFIXES : List (List ℕ) :=
  [[0x43D, 0x43E, 0x441, 0x442], [0x441, 0x442, 0x432, 0x43E],
   [0x435, 0x43D, 0x438, 0x435], [0x430, 0x446, 0x438, 0x44F],
   [0x447, 0x438, 0x43A], [0x43D, 0x438, 0x43A],
   [0x442, 0x435, 0x43B, 0x44C], [0x441, 0x43A, 0x438, 0x439],
   [0x430, 0x43B, 0x44C, 0x43D, 0x44B, 0x439], [0x438, 0x437, 0x43C],
   [0x43B, 0x438, 0x432, 0x44B, 0x439], [0x43E, 0x441, 0x442, 0x44C]]

def russianMorphologyBreaks (cps : List CodepointInfo) (lowerWord : List ℕ) : List ℕ :=
  (RUSSIAN_PREFIXES.filterMap fun p =>
    if p.length ≠ 0 && p.length < lowerWord.length && decide (p.isPrefixOf lowerWord) &&
        russianBreakAllowed cps p.length
    then some p.length else none) ++
  (RUSSIAN_SUFFIXES.filterMap fun sfx =>
    if sfx.length ≠ 0 && sfx.length < lowerWord.length &&
        decide (sfx.isPrefixOf (lowerWord.drop (lowerWord.length - sfx.length))) &&
        russianBreakAllowed cps (lowerWord.length - sfx.length)
    then some (lowerWord.length - sfx.length) else none)

def russianBreakIndexes (cps : List CodepointInfo) : List ℕ :=
  if cps.length < 4 then []
  else
    let lowerWord := lowercaseCyrillicWord cps
    let vp := (List.range cps.length).filter fun i => isCyrillicVowel (cpVal cps i)
    if vp.length < 2 then []
    else
      let pairCands := (vp.zip vp.tail).filterMap fun pr =>
        if pr.2 - pr.1 == 1 then
          if 2 ≤ pr.2 && 2 ≤ cps.length - pr.2 && !nextToSoftSign cps pr.2 &&
              russianBreakAllowed cps pr.2
          then some pr.2 else none
        else
          let bi := match doubleConsonantSplit cps (pr.1 + 1) pr.2 with
            | some sp => sp
            | none => pr.2 - russianOnsetLength cps (pr.1 + 1) pr.2
          if 2 ≤ bi && 2 ≤ cps.length - bi && !nextToSoftSign cps bi &&
              russianBreakAllowed cps bi
          then some bi else none
      dedupAdj (sortNat (pairCands ++ russianMorphologyBreaks cps lowerWord))

/- ## Hyphenator facade (hyphenation/Hyphenator.cpp) -/

def MIN_PREFIX_CP : ℕ := 2

def MIN_SUFFIX_CP : ℕ := 2

def collectExplicitHyphenIndexes (cps : List CodepointInfo) : List ℕ :=
  (List.range cps.length).filterMap fun i =>
    if isExplicitHyphen (cpVal cps i) && decide (1 ≤ i) && decide (i + 1 < cps.length) &&
        isAlphabetic (cpVal cps (i - 1)) && isAlphabetic (cpVal cps (i + 1))
    then some (i + 1) else none

def hasOnlyAlphabetic (cps : List CodepointInfo) : Bool :=
  !cps.isEmpty && cps.all fun c => isAlphabetic c.value

def collectBreakIndexes (cps : List CodepointInfo) : List ℕ :=
  if cps.length < MIN_PREFIX_CP + MIN_SUFFIX_CP then []
  else
    match detectScript cps with
    | Script.Latin => englishBreakIndexes cps
    | Script.Cyrillic => russianBreakIndexes cps
    | Script.Mixed => []

def byteOffsetForIndex (cps : List CodepointInfo) (idx : ℕ) : ℕ :=
  if idx ≥ cps.length then
    match cps.getLast? with
    | none => 0
    | some c => c.byteOffset
  else (cps.getD idx ⟨0, 0⟩).byteOffset

/-- The fallback candidate indexes appended when includeFallback is set. -/
def fallbackIndexes (n : ℕ) : List ℕ :=
  (List.range (n + 1)).filter fun idx => MIN_PREFIX_CP ≤ idx && idx + MIN_SUFFIX_CP ≤ n

/-- The trimmed codepoint sequence of a word: decode then trim surrounding
punctuation, exactly as at the top of Hyphenator::breakOffsets. -/
def trimmedCps (word : List ℕ) : List CodepointInfo :=
  trimSurroundingPunctuation (collectCodepoints word)

/-- The rule-based-or-fallback candidate indexes of the facade's non-explicit
path. -/
def facadeIndexes (word : List ℕ) (includeFallback : Bool) : List ℕ :=
  (if hasOnlyAlphabetic (trimmedCps word) then collectBreakIndexes (trimmedCps word) else []) ++
  (if includeFallback then fallbackIndexes (trimmedCps word).length else [])

/-- Hyphenator::breakOffsets: sorted unique byte offsets where the word may be
hyphenated. -/
def breakOffsets (word : List ℕ) (includeFallback : Bool) : List ℕ :=
  if word.isEmpty then []
  else if (trimmedCps word).length < MIN_PREFIX_CP + MIN_SUFFIX_CP then []
  else if !(collectExplicitHyphenIndexes (trimmedCps word)).isEmpty then
    (dedupAdj (sortNat (collectExplicitHyphenIndexes (trimmedCps word)))).map
      (byteOffsetForIndex (trimmedCps word))
  else if (facadeIndexes word includeFallback).isEmpty then []
  else (dedupAdj (sortNat (facadeIndexes word includeFallback))).map
    (byteOffsetForIndex (trimmedCps word))


/- ## Facts about trimming and byte offsets -/

theorem getD_mem_of_lt {α : Type} (l : List α) (n : ℕ) (d : α) (h : n < l.length) :
    l.getD n d ∈ l := by
  have hx : l.getD n d = l[n] := by simp [List.getD, List.getElem?_eq_getElem h]
  rw [hx]
  exact List.getElem_mem h

theorem trim_decomp (cps : List CodepointInfo) :
    ∃ A B, cps = A ++ trimSurroundingPunctuation cps ++ B ∧
      (∀ c ∈ A, isPunctuation c.value = true) ∧
      (∀ c ∈ B, isPunctuation c.value = true) := by
  unfold trimSurroundingPunctuation
  set p : CodepointInfo → Bool := fun c => isPunctuation c.value with hp
  set m := cps.dropWhile p with hm
  have hsplit1 : cps = cps.takeWhile p ++ m := by
    rw [hm, List.takeWhile_append_dropWhile]
  have hsplit2 : m = (m.reverse.dropWhile p).reverse ++ (m.reverse.takeWhile p).reverse := by
    calc m = m.reverse.reverse := (List.reverse_reverse m).symm
    _ = (m.reverse.takeWhile p ++ m.reverse.dropWhile p).reverse := by
        rw [List.takeWhile_append_dropWhile]
    _ = (m.reverse.dropWhile p).reverse ++ (m.reverse.takeWhile p).reverse := by
        rw [List.reverse_append]
  refine ⟨cps.takeWhile p, (m.reverse.takeWhile p).reverse, ?_, ?_, ?_⟩
  · conv_lhs => rw [hsplit1, hsplit2]
    rw [List.append_assoc]
  · intro c hc
    have := List.mem_takeWhile_imp hc
    simpa [hp] using this
  · intro c hc
    rw [List.mem_reverse] at hc
    have := List.mem_takeWhile_imp hc
    simpa [hp] using this

theorem collectCodepoints_ne_nil (b : ℕ) (rest : List ℕ) :
    ∃ v t, collectCodepoints (b :: rest) = ⟨v, 0⟩ :: t := by
  unfold collectCodepoints
  exact utf8Decode_head_offset b rest 0

theorem collectCodepoints_bounds (w : List ℕ) :
    ∀ c ∈ collectCodepoints w, c.byteOffset < w.length := by
  intro c hc
  have := (utf8Decode_byteOffset_bounds w 0 c hc).2
  simpa using this

theorem collectCodepoints_pairwise (w : List ℕ) :
    (collectCodepoints w).Pairwise (fun a b => a.byteOffset < b.byteOffset) :=
  utf8Decode_pairwise w 0

/-- Every element of the trimmed sequence is an element of the full decode. -/
theorem trimmedCps_mem (w : List ℕ) (c : CodepointInfo) (hc : c ∈ trimmedCps w) :
    c ∈ collectCodepoints w := by
  obtain ⟨A, B, hAB, -, -⟩ := trim_decomp (collectCodepoints w)
  unfold trimmedCps at hc
  rw [hAB]
  simp
  tauto

/-- Length bookkeeping for the trim decomposition. -/
theorem trim_decomp_length (w : List ℕ) (A B : List CodepointInfo)
    (hAB : collectCodepoints w = A ++ trimSurroundingPunctuation (collectCodepoints w) ++ B) :
    (collectCodepoints w).length = A.length + (trimmedCps w).length + B.length := by
  conv_lhs => rw [hAB]
  unfold trimmedCps
  simp
  omega

/-- Non-initial positions of the trimmed sequence sit at positive byte
offsets. -/
theorem trimmedCps_getD_pos (w : List ℕ) (hw : w ≠ []) (idx : ℕ) (h1 : 1 ≤ idx)
    (h2 : idx < (trimmedCps w).length) :
    1 ≤ ((trimmedCps w).getD idx ⟨0, 0⟩).byteOffset := by
  obtain ⟨A, B, hAB, -, -⟩ := trim_decomp (collectCodepoints w)
  have hlens := trim_decomp_length w A B hAB
  unfold trimmedCps at h2 hlens ⊢
  set T := trimSurroundingPunctuation (collectCodepoints w) with hT
  have hgetD : T.getD idx ⟨0, 0⟩ = (collectCodepoints w).getD (A.length + idx) ⟨0, 0⟩ := by
    rw [List.getD, List.getD, hAB, List.append_assoc,
      List.get?_append_right (by omega : A.length ≤ A.length + idx),
      show A.length + idx - A.length = idx by omega,
      List.get?_append h2]
  rw [hgetD]
  rcases w with _ | ⟨b, rest⟩
  · exact absurd rfl hw
  obtain ⟨v, t, hcons⟩ := collectCodepoints_ne_nil b rest
  have hpw := collectCodepoints_pairwise (b :: rest)
  rw [hcons] at hpw hlens ⊢
  obtain ⟨m, hm⟩ : ∃ m, A.length + idx = m + 1 := ⟨A.length + idx - 1, by omega⟩
  have hmlt : m < t.length := by
    simp at hlens
    omega
  rw [List.getD, hm, List.get?_cons_succ, List.get?_eq_get hmlt]
  simp only [Option.getD_some]
  have hcmem : t.get ⟨m, hmlt⟩ ∈ t := List.get_mem t m hmlt
  have hlt := (List.pairwise_cons.mp hpw).1 _ hcmem
  simp at hlt
  simp only [List.get_eq_getElem]
  omega

theorem byteOffsetForIndex_pos_lt (w : List ℕ) (hw : w ≠ []) (idx : ℕ) (h1 : 1 ≤ idx)
    (h2 : idx < (trimmedCps w).length) :
    1 ≤ byteOffsetForIndex (trimmedCps w) idx ∧
      byteOffsetForIndex (trimmedCps w) idx < w.length := by
  unfold byteOffsetForIndex
  rw [if_neg (by omega)]
  refine ⟨trimmedCps_getD_pos w hw idx h1 h2, ?_⟩
  have hmem : (trimmedCps w).getD idx ⟨0, 0⟩ ∈ trimmedCps w := getD_mem_of_lt _ _ _ h2
  exact collectCodepoints_bounds w _ (trimmedCps_mem w _ hmem)


/- ## Candidate index bounds -/

theorem mem_collectExplicitHyphenIndexes (cps : List CodepointInfo) (idx : ℕ) :
    idx ∈ collectExplicitHyphenIndexes cps ↔
      ∃ i, idx = i + 1 ∧ 1 ≤ i ∧ i + 1 < cps.length ∧
        isExplicitHyphen (cpVal cps i) = true ∧
        isAlphabetic (cpVal cps (i - 1)) = true ∧
        isAlphabetic (cpVal cps (i + 1)) = true := by
  unfold collectExplicitHyphenIndexes
  simp only [List.mem_filterMap, List.mem_range]
  constructor
  · rintro ⟨i, hi, hsome⟩
    split_ifs at hsome with hc
    simp only [Option.some.injEq] at hsome
    simp only [Bool.and_eq_true, decide_eq_true_eq] at hc
    exact ⟨i, hsome.symm, hc.1.1.1.2, hc.1.1.2, hc.1.1.1.1, hc.1.2, hc.2⟩
  · rintro ⟨i, rfl, h1, h2, h3, h4, h5⟩
    refine ⟨i, by omega, ?_⟩
    have hcond : (isExplicitHyphen (cpVal cps i) && decide (1 ≤ i) &&
        decide (i + 1 < cps.length) && isAlphabetic (cpVal cps (i - 1)) &&
        isAlphabetic (cpVal cps (i + 1))) = true := by
      simp only [Bool.and_eq_true, decide_eq_true_eq]
      exact ⟨⟨⟨⟨h3, h1⟩, h2⟩, h4⟩, h5⟩
    rw [if_pos hcond]

theorem mem_collectExplicitHyphenIndexes_bounds (cps : List CodepointInfo) (idx : ℕ)
    (h : idx ∈ collectExplicitHyphenIndexes cps) : 2 ≤ idx ∧ idx < cps.length := by
  rw [mem_collectExplicitHyphenIndexes] at h
  obtain ⟨i, rfl, h1, h2, -⟩ := h
  omega

theorem russianBreakAllowed_bounds (cps : List CodepointInfo) (bi : ℕ)
    (h : russianBreakAllowed cps bi = true) : 2 ≤ bi ∧ bi + 2 ≤ cps.length := by
  unfold russianBreakAllowed at h
  split_ifs at h with hA hB hC hD hE
  simp at hA hB
  omega

theorem mem_englishMorphologyBreaks_bounds (cps : List CodepointInfo) (lw : List ℕ) (idx : ℕ)
    (h : idx ∈ englishMorphologyBreaks cps lw) : 2 ≤ idx ∧ idx + 2 ≤ cps.length := by
  unfold englishMorphologyBreaks at h
  split_ifs at h with hlen
  · simp at h
  · rw [List.mem_append] at h
    rcases h with h | h
    · rw [List.mem_filterMap] at h
      obtain ⟨p, -, hsome⟩ := h
      split_ifs at hsome with hc
      simp only [Option.some.injEq] at hsome
      subst hsome
      simp only [englishMorphOk, Bool.and_eq_true, decide_eq_true_eq] at hc
      omega
    · rw [List.mem_filterMap] at h
      obtain ⟨p, -, hsome⟩ := h
      split_ifs at hsome with hc
      simp only [Option.some.injEq] at hsome
      subst hsome
      simp only [englishMorphOk, Bool.and_eq_true, decide_eq_true_eq] at hc
      omega

theorem mem_russianMorphologyBreaks_bounds (cps : List CodepointInfo) (lw : List ℕ) (idx : ℕ)
    (h : idx ∈ russianMorphologyBreaks cps lw) : 2 ≤ idx ∧ idx + 2 ≤ cps.length := by
  unfold russianMorphologyBreaks at h
  rw [List.mem_append] at h
  rcases h with h | h
  · rw [List.mem_filterMap] at h
    obtain ⟨p, -, hsome⟩ := h
    split_ifs at hsome with hc
    simp only [Option.some.injEq] at hsome
    subst hsome
    simp only [Bool.and_eq_true, decide_eq_true_eq] at hc
    exact russianBreakAllowed_bounds cps _ hc.2
  · rw [List.mem_filterMap] at h
    obtain ⟨p, -, hsome⟩ := h
    split_ifs at hsome with hc
    simp only [Option.some.injEq] at hsome
    subst hsome
    simp only [Bool.and_eq_true, decide_eq_true_eq] at hc
    exact russianBreakAllowed_bounds cps _ hc.2

theorem mem_englishBreakIndexes_bounds (cps : List CodepointInfo) (idx : ℕ)
    (h : idx ∈ englishBreakIndexes cps) : 2 ≤ idx ∧ idx + 2 ≤ cps.length := by
  unfold englishBreakIndexes at h
  by_cases h4 : cps.length < 4
  · simp only [if_pos h4] at h
    simp at h
  · simp only [if_neg h4] at h
    by_cases hvp :
        (List.filter (fun i => isLatinVowel (cpVal cps i)) (List.range cps.length)).length < 2
    · simp only [if_pos hvp] at h
      simp at h
    · simp only [if_neg hvp] at h
      rw [mem_dedupAdj, mem_sortNat, List.mem_append] at h
      rcases h with h | h
      · rw [List.mem_filterMap] at h
        obtain ⟨pr, -, hsome⟩ := h
        split_ifs at hsome with hadj hc1 hc2
        · simp only [Option.some.injEq] at hsome
          simp only [Bool.and_eq_true, decide_eq_true_eq] at hc1
          omega
        · simp only [Option.some.injEq] at hsome
          simp only [Bool.and_eq_true, decide_eq_true_eq] at hc2
          omega
      · exact mem_englishMorphologyBreaks_bounds cps _ idx h

theorem mem_russianBreakIndexes_bounds (cps : List CodepointInfo) (idx : ℕ)
    (h : idx ∈ russianBreakIndexes cps) : 2 ≤ idx ∧ idx + 2 ≤ cps.length := by
  unfold russianBreakIndexes at h
  by_cases h4 : cps.length < 4
  · simp only [if_pos h4] at h
    simp at h
  · simp only [if_neg h4] at h
    by_cases hvp :
        (List.filter (fun i => isCyrillicVowel (cpVal cps i)) (List.range cps.length)).length < 2
    · simp only [if_pos hvp] at h
      simp at h
    · simp only [if_neg hvp] at h
      rw [mem_dedupAdj, mem_sortNat, List.mem_append] at h
      rcases h with h | h
      · rw [List.mem_filterMap] at h
        obtain ⟨pr, -, hsome⟩ := h
        split_ifs at hsome with hadj hc1 hc2
        · simp only [Option.some.injEq] at hsome
          simp only [Bool.and_eq_true, decide_eq_true_eq] at hc1
          omega
        · simp only [Option.some.injEq] at hsome
          simp only [Bool.and_eq_true, decide_eq_true_eq] at hc2
          omega
      · exact mem_russianMorphologyBreaks_bounds cps _ idx h

theorem mem_fallbackIndexes (n idx : ℕ) :
    idx ∈ fallbackIndexes n ↔ 2 ≤ idx ∧ idx + 2 ≤ n := by
  unfold fallbackIndexes
  simp [MIN_PREFIX_CP, MIN_SUFFIX_CP]
  omega

theorem mem_collectBreakIndexes_bounds (cps : List CodepointInfo) (idx : ℕ)
    (h : idx ∈ collectBreakIndexes cps) : 2 ≤ idx ∧ idx + 2 ≤ cps.length := by
  unfold collectBreakIndexes at h
  split_ifs at h with hlen
  · simp at h
  · rcases hs : detectScript cps with _ | _ | _ <;> rw [hs] at h
    · exact mem_englishBreakIndexes_bounds cps idx h
    · exact mem_russianBreakIndexes_bounds cps idx h
    · simp at h

/-- Bounds for the candidate indexes of the non-explicit facade path. -/
theorem mem_facadeIndexes_bounds (w : List ℕ) (fb : Bool) (idx : ℕ)
    (h : idx ∈ facadeIndexes w fb) : 2 ≤ idx ∧ idx + 2 ≤ (trimmedCps w).length := by
  unfold facadeIndexes at h
  rw [List.mem_append] at h
  rcases h with h | h
  · by_cases halpha : hasOnlyAlphabetic (trimmedCps w)
    · rw [if_pos halpha] at h
      exact mem_collectBreakIndexes_bounds _ idx h
    · rw [if_neg halpha] at h
      simp at h
  · by_cases hfb : fb
    · rw [if_pos hfb, mem_fallbackIndexes] at h
      omega
    · rw [if_neg hfb] at h
      simp at h

/-- Every byte offset returned by the facade corresponds to a candidate index
strictly inside the trimmed codepoint sequence. -/
theorem mem_breakOffsets_shape (w : List ℕ) (fb : Bool) (o : ℕ)
    (h : o ∈ breakOffsets w fb) :
    w ≠ [] ∧ 4 ≤ (trimmedCps w).length ∧
      ∃ idx, 1 ≤ idx ∧ idx < (trimmedCps w).length ∧
        o = byteOffsetForIndex (trimmedCps w) idx := by
  unfold breakOffsets at h
  by_cases hempty : w.isEmpty
  · rw [if_pos hempty] at h
    simp at h
  · rw [if_neg hempty] at h
    by_cases hshort : (trimmedCps w).length < MIN_PREFIX_CP + MIN_SUFFIX_CP
    · rw [if_pos hshort] at h
      simp at h
    · rw [if_neg hshort] at h
      refine ⟨by simpa using hempty, by simp [MIN_PREFIX_CP, MIN_SUFFIX_CP] at hshort; omega, ?_⟩
      by_cases hexp : (collectExplicitHyphenIndexes (trimmedCps w)).isEmpty
      · rw [if_neg (by simp [hexp])] at h
        by_cases hnil : (facadeIndexes w fb).isEmpty
        · rw [if_pos hnil] at h
          simp at h
        · rw [if_neg hnil] at h
          rw [List.mem_map] at h
          obtain ⟨idx, hidx, rfl⟩ := h
          rw [mem_dedupAdj, mem_sortNat] at hidx
          have hb := mem_facadeIndexes_bounds w fb idx hidx
          exact ⟨idx, by omega, by omega, rfl⟩
      · rw [if_pos (by simp at hexp ⊢; exact hexp)] at h
        rw [List.mem_map] at h
        obtain ⟨idx, hidx, rfl⟩ := h
        rw [mem_dedupAdj, mem_sortNat] at hidx
        have hb := mem_collectExplicitHyphenIndexes_bounds _ idx hidx
        exact ⟨idx, by omega, hb.2, rfl⟩

theorem pairwise_lt_filterMap (l : List ℕ) (f : ℕ → Option ℕ) (hl : l.Pairwise (· < ·))
    (hmono : ∀ a b x y, a < b → f a = some x → f b = some y → x < y) :
    (l.filterMap f).Pairwise (· < ·) := by
  induction l with
  | nil => simp
  | cons a t ih =>
    rcases List.pairwise_cons.mp hl with ⟨ha, ht⟩
    rw [List.filterMap_cons]
    rcases hfa : f a with _ | x
    · exact ih ht
    · refine List.pairwise_cons.mpr ⟨?_, ih ht⟩
      intro y hy
      rw [List.mem_filterMap] at hy
      obtain ⟨b, hb, hfb⟩ := hy
      exact hmono a b x y (ha b hb) hfa hfb

theorem collectExplicitHyphenIndexes_pairwise (cps : List CodepointInfo) :
    (collectExplicitHyphenIndexes cps).Pairwise (· < ·) := by
  unfold collectExplicitHyphenIndexes
  refine pairwise_lt_filterMap _ _ (List.pairwise_lt_range cps.length) ?_
  intro a b x y hab hfa hfb
  split_ifs at hfa hfb
  simp at hfa hfb
  omega

/- ## Claim C10: returned offsets are interior byte offsets -/

/-- C10: for every non-empty word and both fallback settings, every byte
offset returned by Hyphenator::breakOffsets is strictly positive, strictly
below the word's byte length, is the first byte of some non-initial decoded
codepoint, and splits the word into a non-empty head and a non-empty tail. -/
theorem breakOffsets_interior (w : List ℕ) (fb : Bool) (hw : w ≠ []) :
    ∀ o ∈ breakOffsets w fb, 0 < o ∧ o < w.length ∧
      (∃ c ∈ collectCodepoints w, c.byteOffset = o) ∧
      w.take o ≠ [] ∧ w.drop o ≠ [] := by
  intro o ho
  obtain ⟨hw', h4, idx, h1, h2, rfl⟩ := mem_breakOffsets_shape w fb o ho
  have hb := byteOffsetForIndex_pos_lt w hw idx h1 h2
  refine ⟨by omega, hb.2, ?_, ?_, ?_⟩
  · rw [show byteOffsetForIndex (trimmedCps w) idx
        = ((trimmedCps w).getD idx ⟨0, 0⟩).byteOffset by
      unfold byteOffsetForIndex
      rw [if_neg (by omega)]]
    exact ⟨_, trimmedCps_mem w _ (getD_mem_of_lt _ _ _ h2), rfl⟩
  · have : (w.take (byteOffsetForIndex (trimmedCps w) idx)).length ≠ 0 := by
      rw [List.length_take]
      rcases hb with ⟨hb1, hb2⟩
      omega
    intro hc
    exact this (by rw [hc]; rfl)
  · have : (w.drop (byteOffsetForIndex (trimmedCps w) idx)).length ≠ 0 := by
      rw [List.length_drop]
      rcases hb with ⟨hb1, hb2⟩
      omega
    intro hc
    exact this (by rw [hc]; rfl)

/-- Witness for C10 on the word "hello" with its only offset 3. -/
theorem breakOffsets_interior_witness :
    0 < 3 ∧ 3 < ([104, 101, 108, 108, 111] : List ℕ).length ∧
      (∃ c ∈ collectCodepoints [104, 101, 108, 108, 111], c.byteOffset = 3) ∧
      ([104, 101, 108, 108, 111] : List ℕ).take 3 ≠ [] ∧
      ([104, 101, 108, 108, 111] : List ℕ).drop 3 ≠ [] :=
  breakOffsets_interior [104, 101, 108, 108, 111] false (by decide) 3 (by decide)

/- ## Claim C7: empty or short words never split -/

/-- C7: the empty word, and every word whose trimmed codepoint count is below
MIN_PREFIX_CP + MIN_SUFFIX_CP, gets no break offsets for either fallback
setting; in particular "cat" and "кот" never split. -/
theorem breakOffsets_short_empty :
    (∀ (w : List ℕ) (fb : Bool),
      w = [] ∨ (trimmedCps w).length < MIN_PREFIX_CP + MIN_SUFFIX_CP →
        breakOffsets w fb = []) ∧
    (∀ fb, breakOffsets [99, 97, 116] fb = [] ∧
      breakOffsets [0xD0, 0xBA, 0xD0, 0xBE, 0xD1, 0x82] fb = []) := by
  constructor
  · intro w fb h
    unfold breakOffsets
    rcases h with rfl | hshort
    · rw [if_pos (by simp)]
    · by_cases hempty : w.isEmpty
      · rw [if_pos hempty]
      · rw [if_neg hempty, if_pos hshort]
  · intro fb
    rcases fb with _ | _ <;> exact ⟨by decide, by decide⟩

/-- Witness for C7 applying the short-word clause to "cat". -/
theorem breakOffsets_short_empty_witness :
    breakOffsets [99, 97, 116] true = [] :=
  breakOffsets_short_empty.1 [99, 97, 116] true (Or.inr (by decide))


/- ## Claim C5: explicit hyphen handling -/

/-- C5 counterexample: the word "ab-cd-ef" contains a literal hyphen flanked
by letters, yet breakOffsets returns two candidate offsets, not exactly one. -/
theorem explicit_hyphen_two_offsets :
    isExplicitHyphen (cpVal (trimmedCps [97, 98, 45, 99, 100, 45, 101, 102]) 2) = true ∧
    isAlphabetic (cpVal (trimmedCps [97, 98, 45, 99, 100, 45, 101, 102]) 1) = true ∧
    isAlphabetic (cpVal (trimmedCps [97, 98, 45, 99, 100, 45, 101, 102]) 3) = true ∧
    breakOffsets [97, 98, 45, 99, 100, 45, 101, 102] false = [3, 6] ∧
    breakOffsets [97, 98, 45, 99, 100, 45, 101, 102] true = [3, 6] ∧
    (breakOffsets [97, 98, 45, 99, 100, 45, 101, 102] false).length ≠ 1 := by
  refine ⟨by decide, by decide, by decide, by decide, by decide, by decide⟩

/-- C5 amended: whenever the trimmed word has at least four codepoints and at
least one letter-flanked literal hyphen, breakOffsets returns, for both
fallback settings, exactly the byte offsets immediately after each such
hyphen (one offset per flanked hyphen, in increasing order). -/
theorem breakOffsets_explicit_exact (w : List ℕ) (fb : Bool)
    (hlen : 4 ≤ (trimmedCps w).length)
    (hexp : collectExplicitHyphenIndexes (trimmedCps w) ≠ []) :
    breakOffsets w fb =
      (collectExplicitHyphenIndexes (trimmedCps w)).map (byteOffsetForIndex (trimmedCps w)) ∧
    (∀ idx, idx ∈ collectExplicitHyphenIndexes (trimmedCps w) ↔
      ∃ i, idx = i + 1 ∧ 1 ≤ i ∧ i + 1 < (trimmedCps w).length ∧
        isExplicitHyphen (cpVal (trimmedCps w) i) = true ∧
        isAlphabetic (cpVal (trimmedCps w) (i - 1)) = true ∧
        isAlphabetic (cpVal (trimmedCps w) (i + 1)) = true) ∧
    ((collectExplicitHyphenIndexes (trimmedCps w)).length = 1 →
      (breakOffsets w fb).length = 1) := by
  have hw : w ≠ [] := by
    intro h
    rw [h] at hlen
    have : trimmedCps ([] : List ℕ) = [] := rfl
    rw [this] at hlen
    simp at hlen
  have heq : breakOffsets w fb =
      (collectExplicitHyphenIndexes (trimmedCps w)).map (byteOffsetForIndex (trimmedCps w)) := by
    unfold breakOffsets
    rw [if_neg (by simpa using hw),
      if_neg (by simp [MIN_PREFIX_CP, MIN_SUFFIX_CP]; omega),
      if_pos (by simpa using hexp),
      sortNat_of_pairwise_lt _ (collectExplicitHyphenIndexes_pairwise _),
      dedupAdj_of_pairwise_lt _ (collectExplicitHyphenIndexes_pairwise _)]
  refine ⟨heq, fun idx => mem_collectExplicitHyphenIndexes _ idx, fun hone => ?_⟩
  rw [heq, List.length_map, hone]

/-- Witness for the amended C5 on the single-hyphen word "ab-cd". -/
theorem breakOffsets_explicit_exact_witness :
    breakOffsets [97, 98, 45, 99, 100] false =
      (collectExplicitHyphenIndexes (trimmedCps [97, 98, 45, 99, 100])).map
        (byteOffsetForIndex (trimmedCps [97, 98, 45, 99, 100])) ∧
    ((collectExplicitHyphenIndexes (trimmedCps [97, 98, 45, 99, 100])).length = 1 →
      (breakOffsets [97, 98, 45, 99, 100] false).length = 1) :=
  ⟨(breakOffsets_explicit_exact [97, 98, 45, 99, 100] false (by decide) (by decide)).1,
   (breakOffsets_explicit_exact [97, 98, 45, 99, 100] false (by decide) (by decide)).2.2⟩


/- ## Claim C8: Russian onset validity and onset length -/

theorem russianOnsetLengthGo_spec (cps : List CodepointInfo) (e : ℕ) (m : ℕ) :
    1 ≤ russianOnsetLengthGo cps e m ∧ russianOnsetLengthGo cps e m ≤ max m 1 ∧
    (∀ len, russianOnsetLengthGo cps e m < len → len ≤ m →
      russianClusterIsValidOnset cps (e - len) e = false) ∧
    (russianClusterIsValidOnset cps (e - russianOnsetLengthGo cps e m) e = true ∨
      (russianOnsetLengthGo cps e m = 1 ∧
        russianClusterIsValidOnset cps (e - 1) e = false)) := by
  induction m with
  | zero =>
    refine ⟨le_rfl, by simp [russianOnsetLengthGo], fun len h1 h2 => by omega, ?_⟩
    by_cases hv : russianClusterIsValidOnset cps (e - 1) e = true
    · left
      simpa [russianOnsetLengthGo] using hv
    · right
      exact ⟨rfl, Bool.eq_false_iff.mpr hv⟩
  | succ m ih =>
    by_cases hv : russianClusterIsValidOnset cps (e - (m + 1)) e = true
    · rw [show russianOnsetLengthGo cps e (m + 1) = m + 1 by
        simp [russianOnsetLengthGo, hv]]
      exact ⟨by omega, by omega, fun len h1 h2 => by omega, Or.inl hv⟩
    · have hgo : russianOnsetLengthGo cps e (m + 1) = russianOnsetLengthGo cps e m := by
        simp [russianOnsetLengthGo, hv]
      rw [hgo]
      obtain ⟨i1, i2, i3, i4⟩ := ih
      refine ⟨i1, by omega, fun len h1 h2 => ?_, i4⟩
      rcases Nat.lt_or_ge len (m + 1) with hlen | hlen
      · exact i3 len h1 (by omega)
      · have : len = m + 1 := by omega
        subst this
        exact Bool.eq_false_iff.mpr hv

/-- C8: the Russian onset validity check accepts a non-empty cluster exactly
when every member is a non-soft/hard-sign Cyrillic consonant and the sonority
ranks are non-decreasing, except that the cluster-initial в/з/с and a sibilant
immediately followed by a stop may violate the ordering; and
russianOnsetLength picks the longest valid suffix cluster of length at most 4
of the inter-vowel cluster, defaulting to 1 when no length qualifies. -/
theorem russian_onset_characterization :
    (∀ (cps : List CodepointInfo) (s e : ℕ), s < e → e ≤ cps.length →
      (russianClusterIsValidOnset cps s e = true ↔
        (∀ i, s ≤ i → i < e → isCyrillicConsonant (cpVal cps i) = true ∧
          isSoftOrHardSign (cpVal cps i) = false) ∧
        (∀ i, s ≤ i → i + 1 < e →
          russianSonority (cpVal cps i) ≤ russianSonority (cpVal cps (i + 1)) ∨
          (i = s ∧ isRussianPrefixConsonant (cpVal cps i) = true) ∨
          (isRussianSibilant (cpVal cps i) = true ∧
            isRussianStop (cpVal cps (i + 1)) = true)))) ∧
    (∀ (cps : List CodepointInfo) (s e : ℕ), s < e → e ≤ cps.length →
      1 ≤ russianOnsetLength cps s e ∧
      russianOnsetLength cps s e ≤ min 4 (e - s) ∧
      (∀ len, russianOnsetLength cps s e < len → len ≤ min 4 (e - s) →
        russianClusterIsValidOnset cps (e - len) e = false) ∧
      (russianClusterIsValidOnset cps (e - russianOnsetLength cps s e) e = true ∨
        (russianOnsetLength cps s e = 1 ∧
          russianClusterIsValidOnset cps (e - 1) e = false))) := by
  constructor
  · intro cps s e hse hlen
    unfold russianClusterIsValidOnset
    rw [if_neg (by omega : ¬ s ≥ e)]
    by_cases hcons : ((List.range (e - s)).all fun t =>
        isCyrillicConsonant (cpVal cps (s + t)) && !isSoftOrHardSign (cpVal cps (s + t))) = true
    · rw [if_neg (by simp only [hcons]; simp)]
      have hconsP : ∀ i, s ≤ i → i < e → isCyrillicConsonant (cpVal cps i) = true ∧
          isSoftOrHardSign (cpVal cps i) = false := by
        intro i hi1 hi2
        simp only [List.all_eq_true, List.mem_range] at hcons
        have := hcons (i - s) (by omega)
        rw [show s + (i - s) = i by omega] at this
        simp at this
        exact ⟨this.1, this.2⟩
      by_cases h1 : e - s = 1
      · rw [if_pos (by simp [h1])]
        simp only [true_iff]
        exact ⟨hconsP, fun i hi1 hi2 => by omega⟩
      · rw [if_neg (by simp [h1])]
        constructor
        · intro hall
          refine ⟨hconsP, fun i hi1 hi2 => ?_⟩
          simp only [List.all_eq_true, List.mem_range] at hall
          have := hall (i - s) (by omega)
          rw [show s + (i - s) = i by omega] at this
          split_ifs at this with hrank
          · simp at this
            rcases this with ⟨hz, hp⟩ | hsib
            · exact Or.inr (Or.inl ⟨by omega, hp⟩)
            · exact Or.inr (Or.inr hsib)
          · exact Or.inl (by omega)
        · rintro ⟨-, hpairs⟩
          simp only [List.all_eq_true, List.mem_range]
          intro t ht
          have := hpairs (s + t) (by omega) (by omega)
          split_ifs with hrank
          · simp only [Bool.or_eq_true, Bool.and_eq_true, beq_iff_eq, decide_eq_true_eq]
            rcases this with hle | ⟨his, hpre⟩ | hsib
            · omega
            · exact Or.inl ⟨by omega, hpre⟩
            · exact Or.inr hsib
          · rfl
    · rw [if_pos (by simp only [Bool.not_eq_true] at hcons; simp [hcons])]
      constructor
      · intro h
        simp at h
      · rintro ⟨hconsP, -⟩
        exfalso
        apply hcons
        simp only [List.all_eq_true, List.mem_range]
        intro t ht
        have := hconsP (s + t) (by omega) (by omega)
        simp [this.1, this.2]
  · intro cps s e hse hlen
    unfold russianOnsetLength
    rw [if_neg (by omega : ¬ e - s = 0)]
    obtain ⟨g1, g2, g3, g4⟩ := russianOnsetLengthGo_spec cps e (min 4 (e - s))
    refine ⟨g1, ?_, g3, g4⟩
    have : 1 ≤ min 4 (e - s) := by omega
    omega

/-- Witness for C8 on the cluster "ст" (с=0x441, т=0x442) and "пр". -/
theorem russian_onset_characterization_witness :
    (russianClusterIsValidOnset [⟨0x441, 0⟩, ⟨0x442, 2⟩] 0 2 = true ↔
      (∀ i, 0 ≤ i → i < 2 → isCyrillicConsonant (cpVal [⟨0x441, 0⟩, ⟨0x442, 2⟩] i) = true ∧
        isSoftOrHardSign (cpVal [⟨0x441, 0⟩, ⟨0x442, 2⟩] i) = false) ∧
      (∀ i, 0 ≤ i → i + 1 < 2 →
        russianSonority (cpVal [⟨0x441, 0⟩, ⟨0x442, 2⟩] i) ≤
          russianSonority (cpVal [⟨0x441, 0⟩, ⟨0x442, 2⟩] (i + 1)) ∨
        (i = 0 ∧ isRussianPrefixConsonant (cpVal [⟨0x441, 0⟩, ⟨0x442, 2⟩] i) = true) ∨
        (isRussianSibilant (cpVal [⟨0x441, 0⟩, ⟨0x442, 2⟩] i) = true ∧
          isRussianStop (cpVal [⟨0x441, 0⟩, ⟨0x442, 2⟩] (i + 1)) = true))) ∧
    1 ≤ russianOnsetLength [⟨0x441, 0⟩, ⟨0x442, 2⟩] 0 2 :=
  ⟨russian_onset_characterization.1 [⟨0x441, 0⟩, ⟨0x442, 2⟩] 0 2 (by decide) (by decide),
   (russian_onset_characterization.2 [⟨0x441, 0⟩, ⟨0x442, 2⟩] 0 2 (by decide) (by decide)).1⟩


/- ## Claim C6: chooseSplitForWidth scan -/

/-- Byte offsets of a strictly offset-increasing codepoint list are strictly
monotone in the index. -/
theorem byteOffsetForIndex_strict (cps : List CodepointInfo)
    (hpw : cps.Pairwise fun a b => a.byteOffset < b.byteOffset)
    (i j : ℕ) (hij : i < j) (hj : j < cps.length) :
    byteOffsetForIndex cps i < byteOffsetForIndex cps j := by
  unfold byteOffsetForIndex
  rw [if_neg (by omega), if_neg (by omega)]
  have hi : i < cps.length := by omega
  have hgi : cps.getD i ⟨0, 0⟩ = cps.get ⟨i, hi⟩ := by
    rw [List.getD, List.get?_eq_get hi]
    rfl
  have hgj : cps.getD j ⟨0, 0⟩ = cps.get ⟨j, hj⟩ := by
    rw [List.getD, List.get?_eq_get hj]
    rfl
  rw [hgi, hgj]
  exact List.pairwise_iff_get.mp hpw ⟨i, hi⟩ ⟨j, hj⟩ (Fin.mk_lt_mk.mpr hij)

/-- Trimming preserves the strictly increasing byte offsets of the decode. -/
theorem trimmedCps_pairwise (w : List ℕ) :
    (trimmedCps w).Pairwise fun a b => a.byteOffset < b.byteOffset := by
  obtain ⟨A, B, hAB, -, -⟩ := trim_decomp (collectCodepoints w)
  have hsub : (trimmedCps w).Sublist (collectCodepoints w) := by
    rw [hAB]
    show (trimmedCps w).Sublist (A ++ trimmedCps w ++ B)
    rw [List.append_assoc]
    exact (List.sublist_append_left (trimmedCps w) B).trans (List.sublist_append_right A _)
  exact List.Pairwise.sublist hsub (collectCodepoints_pairwise w)

/-- The candidate byte offsets come out sorted strictly ascending. -/
theorem breakOffsets_pairwise (w : List ℕ) (fb : Bool) :
    (breakOffsets w fb).Pairwise (· < ·) := by
  unfold breakOffsets
  by_cases hempty : w.isEmpty
  · rw [if_pos hempty]
    simp
  · rw [if_neg hempty]
    by_cases hshort : (trimmedCps w).length < MIN_PREFIX_CP + MIN_SUFFIX_CP
    · rw [if_pos hshort]
      simp
    · rw [if_neg hshort]
      by_cases hexp : (collectExplicitHyphenIndexes (trimmedCps w)).isEmpty
      · rw [if_neg (by simp [hexp])]
        by_cases hnil : (facadeIndexes w fb).isEmpty
        · rw [if_pos hnil]
          simp
        · rw [if_neg hnil, List.pairwise_map]
          refine List.Pairwise.imp_of_mem ?_ (pairwise_dedupAdj _ (pairwise_sortNat _))
          intro a b ha hb hab
          rw [mem_dedupAdj, mem_sortNat] at hb
          have hbb := mem_facadeIndexes_bounds w fb b hb
          exact byteOffsetForIndex_strict _ (trimmedCps_pairwise w) a b hab (by omega)
      · rw [if_pos (by simp at hexp ⊢; exact hexp), List.pairwise_map]
        refine List.Pairwise.imp_of_mem ?_ (pairwise_dedupAdj _ (pairwise_sortNat _))
        intro a b ha hb hab
        rw [mem_dedupAdj, mem_sortNat] at hb
        have hbb := mem_collectExplicitHyphenIndexes_bounds _ b hb
        exact byteOffsetForIndex_strict _ (trimmedCps_pairwise w) a b hab (by omega)

/-- The candidate scan of chooseSplitForWidth: walk the offsets in order,
remember the latest fitting candidate, stop at the first that does not fit. -/
def chooseScan (fits : ℕ → Bool) (wfun : ℕ → ℕ) :
    List ℕ → Option (ℕ × ℕ) → Option (ℕ × ℕ)
  | [], acc => acc
  | o :: rest, acc =>
    if fits o then chooseScan fits wfun rest (some (o, wfun o)) else acc

/-- chooseSplitForWidth from ParsedText.cpp, with the renderer abstracted as a
width measure on byte strings.  The result pairs the chosen byte offset with
the uint16 prefix-plus-hyphen width stored in the decision. -/
def chooseSplitForWidth (mw : List ℕ → ℤ) (word : List ℕ) (availableWidth : ℤ)
    (includeFallback : Bool) : Option (ℕ × ℕ) :=
  if availableWidth ≤ 0 then none
  else if availableWidth - mw [45] ≤ 0 then none
  else if breakOffsets word includeFallback = [] then none
  else
    chooseScan (fun o => decide (mw (word.take o) ≤ availableWidth - mw [45]))
      (fun o => ((mw (word.take o) + mw [45]) % 65536).toNat)
      (breakOffsets word includeFallback) none

/-- The scan keeps exactly the last candidate of the fitting initial run. -/
theorem chooseScan_eq (fits : ℕ → Bool) (wfun : ℕ → ℕ) :
    ∀ (l : List ℕ) (acc : Option (ℕ × ℕ)),
      chooseScan fits wfun l acc =
        (l.takeWhile fits).getLast?.elim acc fun o => some (o, wfun o) := by
  intro l
  induction l with
  | nil =>
    intro acc
    simp [chooseScan]
  | cons a t ih =>
    intro acc
    by_cases hfa : fits a
    · have h1 : chooseScan fits wfun (a :: t) acc =
          chooseScan fits wfun t (some (a, wfun a)) := by
        simp [chooseScan, hfa]
      rw [h1, ih, List.takeWhile_cons_of_pos hfa]
      rcases htw : t.takeWhile fits with _ | ⟨b, tw⟩
      · simp
      · rw [List.getLast?_cons_cons]
        rcases hg : (b :: tw).getLast? with _ | y
        · simp at hg
        · simp
    · have h1 : chooseScan fits wfun (a :: t) acc = acc := by
        simp [chooseScan, hfa]
      rw [h1, List.takeWhile_cons_of_neg (by simp [hfa])]
      simp

/-- Membership of the value of getLast?. -/
theorem mem_of_getLast_some {α : Type} (l : List α) (o : α) (h : l.getLast? = some o) :
    o ∈ l := by
  obtain ⟨hne, heq⟩ := List.mem_getLast?_eq_getLast (Option.mem_def.mpr h)
  rw [heq]
  exact List.getLast_mem hne

/-- In a strictly ascending list the last element bounds every member. -/
theorem le_getLast_of_pairwise_lt (l : List ℕ) (o : ℕ) (hpw : l.Pairwise (· < ·))
    (hlast : l.getLast? = some o) : ∀ x ∈ l, x ≤ o := by
  induction l with
  | nil => simp at hlast
  | cons a t ih =>
    rcases t with _ | ⟨b, t'⟩
    · simp at hlast
      intro x hx
      simp at hx
      omega
    · rw [List.getLast?_cons_cons] at hlast
      rcases List.pairwise_cons.mp hpw with ⟨ha, ht⟩
      intro x hx
      rcases List.mem_cons.mp hx with rfl | hx'
      · have hom : o ∈ b :: t' := mem_of_getLast_some _ _ hlast
        exact le_of_lt (ha o hom)
      · exact ih ht hlast x hx'

/-- C6: chooseSplitForWidth never returns a decision when the available width
minus the hyphen glyph width is non-positive; the candidate offsets are
scanned in strictly ascending order; a returned decision carries the last
candidate of the initial run of fitting prefixes (the scan stops at the first
candidate whose prefix does not fit), its prefix plus the hyphen glyph fits
the available width, the stored width is the uint16 cast of prefix-plus-hyphen
width, and for a monotone measure the kept prefix is the widest fitting one
scanned. -/
theorem chooseSplitForWidth_spec (mw : List ℕ → ℤ) (word : List ℕ) (avail : ℤ)
    (fb : Bool)
    (hmono : ∀ a b : ℕ, a ≤ b → mw (word.take a) ≤ mw (word.take b)) :
    (breakOffsets word fb).Pairwise (· < ·) ∧
    (avail - mw [45] ≤ 0 → chooseSplitForWidth mw word avail fb = none) ∧
    (∀ o pw, chooseSplitForWidth mw word avail fb = some (o, pw) →
      mw (word.take o) + mw [45] ≤ avail ∧
      ((breakOffsets word fb).takeWhile
          fun x => decide (mw (word.take x) ≤ avail - mw [45])).getLast? = some o ∧
      pw = ((mw (word.take o) + mw [45]) % 65536).toNat ∧
      ∀ x ∈ (breakOffsets word fb).takeWhile
          fun x => decide (mw (word.take x) ≤ avail - mw [45]),
        x ≤ o ∧ mw (word.take x) ≤ mw (word.take o)) := by
  refine ⟨breakOffsets_pairwise word fb, ?_, ?_⟩
  · intro hadj
    unfold chooseSplitForWidth
    by_cases h0 : avail ≤ 0
    · rw [if_pos h0]
    · rw [if_neg h0, if_pos hadj]
  · intro o pw hsome
    unfold chooseSplitForWidth at hsome
    split_ifs at hsome with h0 hadj hoff
    rw [chooseScan_eq] at hsome
    rcases hg : ((breakOffsets word fb).takeWhile
        fun x => decide (mw (word.take x) ≤ avail - mw [45])).getLast? with _ | o'
    · rw [hg] at hsome
      simp at hsome
    · rw [hg] at hsome
      simp only [Option.elim_some, Option.some.injEq, Prod.mk.injEq] at hsome
      obtain ⟨rfl, rfl⟩ := hsome
      have homem : o' ∈ (breakOffsets word fb).takeWhile
          fun x => decide (mw (word.take x) ≤ avail - mw [45]) :=
        mem_of_getLast_some _ _ hg
      have hofits := List.mem_takeWhile_imp homem
      simp only [decide_eq_true_eq] at hofits
      have hpwtw : ((breakOffsets word fb).takeWhile
          fun x => decide (mw (word.take x) ≤ avail - mw [45])).Pairwise (· < ·) :=
        List.Pairwise.sublist (List.takeWhile_sublist _) (breakOffsets_pairwise word fb)
      refine ⟨by omega, rfl, rfl, ?_⟩
      intro x hx
      have hxo := le_getLast_of_pairwise_lt _ o' hpwtw hg x hx
      exact ⟨hxo, hmono x o' hxo⟩

/-- Witness for C6 on the word "hello" with a 10-pixels-per-byte measure at
available width 45: the split lands after "hel" with stored width 40. -/
theorem chooseSplitForWidth_spec_witness :
    ∃ o pw, chooseSplitForWidth (fun bs : List ℕ => (10 * bs.length : ℤ))
        [104, 101, 108, 108, 111] 45 true = some (o, pw) ∧
      10 * (([104, 101, 108, 108, 111].take o).length : ℤ) + 10 ≤ 45 := by
  have h := (chooseSplitForWidth_spec (fun bs : List ℕ => (10 * bs.length : ℤ))
      [104, 101, 108, 108, 111] 45 true
      (fun a b hab => by
        simp only [List.length_take]
        omega)).2.2 3 40 (by decide)
  refine ⟨3, 40, by decide, ?_⟩
  have := h.1
  simpa using this


/- ## Claim C4: the old hyphenation engine (src/lib/Epub/Epub/Hyphenator.cpp)
and its splitWord recombination law -/

namespace OldHyph

def MIN_PREFIX_CP : ℕ := 3

def MIN_SUFFIX_CP : ℕ := 2

/-- The old engine tests the four sign codepoints directly. -/
def isSoftOrHardSign (cp : ℕ) : Bool :=
  cp == 0x44C || cp == 0x42C || cp == 0x44A || cp == 0x42A

def nextToSoftSign (cps : List CodepointInfo) (i : ℕ) : Bool :=
  if i == 0 || i ≥ cps.length then false
  else isSoftOrHardSign (cpVal cps (i - 1)) || isSoftOrHardSign (cpVal cps i)

def russianClusterIsValidOnset (cps : List CodepointInfo) (s e : ℕ) : Bool :=
  if s ≥ e then false
  else if !((List.range (e - s)).all fun t =>
      let cp := cpVal cps (s + t)
      isCyrillicConsonant cp && !isSoftOrHardSign cp) then false
  else if e - s == 1 then true
  else (List.range (e - s - 1)).all fun t =>
    let cur := cpVal cps (s + t)
    let nxt := cpVal cps (s + t + 1)
    if russianSonority cur > russianSonority nxt then
      (t == 0 && isRussianPrefixConsonant cur) || (isRussianSibilant cur && isRussianStop nxt)
    else true

def russianOnsetLengthGo (cps : List CodepointInfo) (e : ℕ) : ℕ → ℕ
  | 0 => 1
  | len + 1 =>
    if russianClusterIsValidOnset cps (e - (len + 1)) e then len + 1
    else russianOnsetLengthGo cps e len

def russianOnsetLength (cps : List CodepointInfo) (s e : ℕ) : ℕ :=
  if e - s = 0 then 0 else russianOnsetLengthGo cps e (min 4 (e - s))

/-- englishBreakIndexes of the old engine: vowel-pair scan with onset backoff,
no morphology tables and no trimming, with the old minimum affix lengths. -/
def englishBreakIndexes (cps : List CodepointInfo) : List ℕ :=
  if cps.length < MIN_PREFIX_CP + MIN_SUFFIX_CP then []
  else
    let vp := (List.range cps.length).filter fun i => isLatinVowel (cpVal cps i)
    if vp.length < 2 then []
    else
      let cands := (vp.zip vp.tail).filterMap fun pr =>
        if pr.2 - pr.1 == 1 then
          if !isEnglishDiphthong (cpVal cps pr.1) (cpVal cps pr.2) && MIN_PREFIX_CP ≤ pr.2 &&
              MIN_SUFFIX_CP ≤ cps.length - pr.2 && !nextToApostrophe cps pr.2
          then some pr.2 else none
        else
          let bi := pr.2 - englishOnsetLength cps (pr.1 + 1) pr.2
          if MIN_PREFIX_CP ≤ bi && MIN_SUFFIX_CP ≤ cps.length - bi && !nextToApostrophe cps bi
          then some bi else none
      dedupAdj (sortNat cands)

def russianBreakIndexes (cps : List CodepointInfo) : List ℕ :=
  if cps.length < MIN_PREFIX_CP + MIN_SUFFIX_CP then []
  else
    let vp := (List.range cps.length).filter fun i => isCyrillicVowel (cpVal cps i)
    if vp.length < 2 then []
    else
      let cands := (vp.zip vp.tail).filterMap fun pr =>
        if pr.2 - pr.1 == 1 then
          if MIN_PREFIX_CP ≤ pr.2 && MIN_SUFFIX_CP ≤ cps.length - pr.2 &&
              !nextToSoftSign cps pr.2
          then some pr.2 else none
        else
          let bi := pr.2 - russianOnsetLength cps (pr.1 + 1) pr.2
          if MIN_PREFIX_CP ≤ bi && MIN_SUFFIX_CP ≤ cps.length - bi && !nextToSoftSign cps bi
          then some bi else none
      dedupAdj (sortNat cands)

/-- The old fallback: break between adjacent letters unless vowel-vowel. -/
def fallbackBreakIndexes (cps : List CodepointInfo) : List ℕ :=
  if cps.length < MIN_PREFIX_CP + MIN_SUFFIX_CP then []
  else
    (List.range (cps.length + 1)).filter fun i =>
      MIN_PREFIX_CP ≤ i && i + MIN_SUFFIX_CP ≤ cps.length &&
      isAlphabetic (cpVal cps (i - 1)) && isAlphabetic (cpVal cps i) &&
      (isVowel (cpVal cps (i - 1)) && !isVowel (cpVal cps i) ||
       !isVowel (cpVal cps (i - 1)) && !isVowel (cpVal cps i) ||
       !isVowel (cpVal cps (i - 1)) && isVowel (cpVal cps i))

/-- The old collectBreakIndexes: language rules, then the fallback whenever the
rules produced nothing. -/
def collectBreakIndexes (cps : List CodepointInfo) : List ℕ :=
  if cps.length < MIN_PREFIX_CP + MIN_SUFFIX_CP then []
  else
    match detectScript cps with
    | Script.Latin =>
      if englishBreakIndexes cps = [] then fallbackBreakIndexes cps
      else englishBreakIndexes cps
    | Script.Cyrillic =>
      if russianBreakIndexes cps = [] then fallbackBreakIndexes cps
      else russianBreakIndexes cps
    | Script.Mixed => fallbackBreakIndexes cps

/-- slice from the old Hyphenator.cpp. -/
def slice (word : List ℕ) (startByte endByte : ℕ) : List ℕ :=
  if startByte ≥ endByte ∨ startByte ≥ word.length then []
  else (word.drop startByte).take (min endByte word.length - startByte)

/-- The main candidate loop of splitWord: remember the last fitting index,
stop at the first that does not fit. -/
def splitScan (fits : ℕ → Bool) : List ℕ → Option ℕ → Option ℕ
  | [], acc => acc
  | i :: rest, acc => if fits i then splitScan fits rest (some i) else acc

/-- The force loop of splitWord: take an index whenever the width budget is
non-positive or the prefix fits, with the (unreachable) early-exit branch. -/
def forceScan (adjusted : ℤ) (pwOf : ℕ → ℤ) : List ℕ → Option ℕ → Option ℕ
  | [], acc => acc
  | i :: rest, acc =>
    if adjusted ≤ 0 ∨ pwOf i ≤ adjusted then
      if 0 < adjusted ∧ adjusted < pwOf i then some i
      else forceScan adjusted pwOf rest (some i)
    else forceScan adjusted pwOf rest acc

def splitFits (mw : List ℕ → ℤ) (word : List ℕ) (adjusted : ℤ) (idx : ℕ) : Bool :=
  decide (mw (word.take (byteOffsetForIndex (collectCodepoints word) idx)) ≤ adjusted)

/-- The chosen break index of splitWord: the main scan, then the force loop
when the scan found nothing and force is set. -/
def splitChosen (mw : List ℕ → ℤ) (word : List ℕ) (availableWidth : ℤ) (force : Bool) :
    Option ℕ :=
  if (if 0 < availableWidth - mw [45] then
        splitScan (splitFits mw word (availableWidth - mw [45]))
          (collectBreakIndexes (collectCodepoints word)) none
      else none).isNone && force then
    forceScan (availableWidth - mw [45])
      (fun idx => mw (word.take (byteOffsetForIndex (collectCodepoints word) idx)))
      ((List.range ((collectCodepoints word).length + 1)).filter fun idx =>
        MIN_PREFIX_CP ≤ idx && idx + MIN_SUFFIX_CP ≤ (collectCodepoints word).length) none
  else
    if 0 < availableWidth - mw [45] then
      splitScan (splitFits mw word (availableWidth - mw [45]))
        (collectBreakIndexes (collectCodepoints word)) none
    else none

/-- Hyphenator::splitWord of the old engine: returns the hyphen-terminated
head and the tail on success. -/
def splitWord (mw : List ℕ → ℤ) (word : List ℕ) (availableWidth : ℤ) (force : Bool) :
    Option (List ℕ × List ℕ) :=
  if word = [] then none
  else if (collectCodepoints word).length < MIN_PREFIX_CP + MIN_SUFFIX_CP then none
  else if !force && !hasOnlyAlphabetic (collectCodepoints word) then none
  else
    match splitChosen mw word availableWidth force with
    | none => none
    | some idx =>
      if word.take (byteOffsetForIndex (collectCodepoints word) idx) = [] ∨
          slice word (byteOffsetForIndex (collectCodepoints word) idx) word.length = [] then
        none
      else
        some (word.take (byteOffsetForIndex (collectCodepoints word) idx) ++ [45],
          slice word (byteOffsetForIndex (collectCodepoints word) idx) word.length)

/-- Slicing to the end of the word is dropping the head bytes. -/
theorem slice_to_end (w : List ℕ) (k : ℕ) : slice w k w.length = w.drop k := by
  unfold slice
  by_cases h : k ≥ w.length
  · rw [if_pos (Or.inr h)]
    exact (List.drop_eq_nil_of_le h).symm
  · rw [if_neg (by omega)]
    have hlen : (w.drop k).length = w.length - k := List.length_drop k w
    rw [min_self]
    exact List.take_of_length_le (by omega)

end OldHyph

/-- C4 counterexample: the old splitWord, forced on the word "ab-rag", keeps
the explicit hyphen in the head and appends another one, so the head ends in
two '-' characters rather than exactly one. -/
theorem splitWord_double_hyphen :
    OldHyph.splitWord (fun bs : List ℕ => (10 * bs.length : ℤ)) [97, 98, 45, 114, 97, 103]
        100 true = some ([97, 98, 45, 45], [114, 97, 103]) ∧
    [97, 98, 45, 45].getLast? = some 45 ∧
    [97, 98, 45, 45].dropLast.getLast? = some 45 := by
  refine ⟨by decide, by decide, by decide⟩

/- ## Claim C9: the split surgery on the word and style queues -/

/-- The queue surgery both split sites perform on words: the word at position
i is replaced by its hyphen-terminated prefix and the remainder is inserted
immediately after it. -/
def splitWords (ws : List (List ℕ)) (i k : ℕ) : List (List ℕ) :=
  ws.take i ++ [(ws.getD i []).take k ++ [45], (ws.getD i []).drop k] ++ ws.drop (i + 1)

/-- The matching surgery on styles: the style at position i is kept and a
copy is inserted immediately after it. -/
def splitStyles (ss : List ℕ) (i : ℕ) : List ℕ :=
  ss.take i ++ [ss.getD i 0, ss.getD i 0] ++ ss.drop (i + 1)

/-- C9: splitting the word at position i replaces it in place by its
hyphen-terminated prefix, inserts the remainder immediately after it with a
copy of the original style, leaves every other word and style entry unchanged,
and preserves the relative order of all pre-existing elements (entries before
i stay at their positions, entries after i shift by exactly one). -/
theorem splitSurgery_frame (ws : List (List ℕ)) (ss : List ℕ) (i k : ℕ)
    (hi : i < ws.length) (hsi : i < ss.length) :
    (splitWords ws i k).length = ws.length + 1 ∧
    (splitWords ws i k).get? i = some ((ws.getD i []).take k ++ [45]) ∧
    (splitWords ws i k).get? (i + 1) = some ((ws.getD i []).drop k) ∧
    (∀ j, j < i → (splitWords ws i k).get? j = ws.get? j) ∧
    (∀ j, i < j → (splitWords ws i k).get? (j + 1) = ws.get? j) ∧
    (splitStyles ss i).length = ss.length + 1 ∧
    (splitStyles ss i).get? i = ss.get? i ∧
    (splitStyles ss i).get? (i + 1) = ss.get? i ∧
    (∀ j, j < i → (splitStyles ss i).get? j = ss.get? j) ∧
    (∀ j, i < j → (splitStyles ss i).get? (j + 1) = ss.get? j) := by
  have hlen : ∀ (α : Type) (l : List α) (a b : α), i < l.length →
      (l.take i ++ [a, b] ++ l.drop (i + 1)).length = l.length + 1 := by
    intro α l a b hil
    have hmin : min i l.length = i := Nat.min_eq_left (by omega)
    simp [List.length_take, List.length_drop, hmin]
    omega
  have hat : ∀ (α : Type) (l : List α) (a b : α), i < l.length →
      (l.take i ++ [a, b] ++ l.drop (i + 1)).get? i = some a := by
    intro α l a b hil
    have hmin : (l.take i).length = i := by
      rw [List.length_take]
      omega
    rw [List.append_assoc, List.get?_append_right (le_of_eq hmin), hmin, Nat.sub_self]
    rfl
  have hat1 : ∀ (α : Type) (l : List α) (a b : α), i < l.length →
      (l.take i ++ [a, b] ++ l.drop (i + 1)).get? (i + 1) = some b := by
    intro α l a b hil
    have hmin : (l.take i).length = i := by
      rw [List.length_take]
      omega
    rw [List.append_assoc, List.get?_append_right (by rw [hmin]; omega), hmin,
      show i + 1 - i = 1 by omega]
    rfl
  have hbefore : ∀ (α : Type) (l : List α) (a b : α) (j : ℕ), j < i → i < l.length →
      (l.take i ++ [a, b] ++ l.drop (i + 1)).get? j = l.get? j := by
    intro α l a b j hj hil
    have hmin : (l.take i).length = i := by
      rw [List.length_take]
      omega
    rw [List.append_assoc, List.get?_append (by rw [hmin]; omega)]
    exact List.get?_take hj
  have hafter : ∀ (α : Type) (l : List α) (a b : α) (j : ℕ), i < j → i < l.length →
      (l.take i ++ [a, b] ++ l.drop (i + 1)).get? (j + 1) = l.get? j := by
    intro α l a b j hj hil
    have hmin : (l.take i).length = i := by
      rw [List.length_take]
      omega
    rw [List.append_assoc, List.get?_append_right (by rw [hmin]; omega), hmin]
    rw [List.get?_append_right (show ([a, b] : List α).length ≤ j + 1 - i by simp; omega)]
    rw [List.get?_drop]
    congr 1
    simp
    omega
  have hgd : ss.get? i = some (ss.getD i 0) := by
    rw [List.get?_eq_get hsi]
    simp [List.getD, List.get?_eq_get hsi]
    rw [List.getElem?_eq_getElem hsi]
    rfl
  refine ⟨hlen _ ws _ _ hi, hat _ ws _ _ hi, hat1 _ ws _ _ hi,
    fun j hj => hbefore _ ws _ _ j hj hi, fun j hj => hafter _ ws _ _ j hj hi,
    hlen _ ss _ _ hsi, ?_, ?_,
    fun j hj => hbefore _ ss _ _ j hj hsi, fun j hj => hafter _ ss _ _ j hj hsi⟩
  · rw [hgd]
    exact hat _ ss _ _ hsi
  · rw [hgd]
    exact hat1 _ ss _ _ hsi

/-- Witness for C9 on a three-word queue, splitting the middle word at byte 2. -/
theorem splitSurgery_frame_witness :
    1 < ([[97], [98, 99, 100], [101]] : List (List ℕ)).length ∧
    (splitWords [[97], [98, 99, 100], [101]] 1 2).get? 1 = some [98, 99, 45] ∧
    (splitStyles [7, 8, 9] 1).get? 2 = some 8 := by
  have h := splitSurgery_frame [[97], [98, 99, 100], [101]] [7, 8, 9] 1 2
    (by decide) (by decide)
  refine ⟨by decide, ?_, ?_⟩
  · have := h.2.1
    simpa using this
  · have := h.2.2.2.2.2.2.2.1
    simpa using this


/- ## Claim C2: justified spacing in ParsedText::extractLine -/

/-- Modelled from the spec: the TextBlock alignment styles named by
ParsedText::extractLine (TextBlock.h itself is not in the tree). -/
inductive TextAlign where
  | leftAlign
  | rightAlign
  | centerAlign
  | justified
deriving DecidableEq

/-- The line word-width sum accumulated by extractLine. -/
def sumW : List ℕ → ℤ
  | [] => 0
  | w :: rest => (w : ℤ) + sumW rest

/-- The pen-position loop of extractLine: push the current xpos, then advance
it by word width plus spacing with uint16 wrap-around. -/
def xposLoop (spacing : ℤ) : List ℕ → ℕ → List ℕ
  | [], _ => []
  | w :: rest, x => x :: xposLoop spacing rest (((x : ℤ) + (w : ℤ) + spacing) % 65536).toNat

/-- The xpos list built by ParsedText::extractLine for one line of word widths
ws.  The C++ divides spareSpace by the size_t value lineWordCount - 1 and
converts the starting offsets to uint16; the truncating division and mod-65536
conversion used here coincide with it on the nonnegative spare space reached
by the theorems below. -/
def extractXPositions (style : TextAlign) (pageWidth spaceWidth : ℤ) (ws : List ℕ)
    (isLastLine : Bool) : List ℕ :=
  xposLoop
    (if style = TextAlign.justified ∧ isLastLine = false ∧ 2 ≤ ws.length
      then (pageWidth - sumW ws).tdiv ((ws.length : ℤ) - 1) else spaceWidth)
    ws
    (if style = TextAlign.rightAlign then
        ((pageWidth - sumW ws - ((ws.length : ℤ) - 1) * spaceWidth) % 65536).toNat
      else if style = TextAlign.centerAlign then
        (((pageWidth - sumW ws - ((ws.length : ℤ) - 1) * spaceWidth).tdiv 2) % 65536).toNat
      else 0)

theorem sumW_nonneg (ws : List ℕ) : 0 ≤ sumW ws := by
  induction ws with
  | nil => simp [sumW]
  | cons w rest ih =>
    simp only [sumW]
    positivity

theorem sumW_append (a b : List ℕ) : sumW (a ++ b) = sumW a + sumW b := by
  induction a with
  | nil => simp [sumW]
  | cons w rest ih =>
    show (w : ℤ) + sumW (rest ++ b) = (w : ℤ) + sumW rest + sumW b
    rw [ih]
    ring

theorem sumW_take_succ (ws : List ℕ) (i : ℕ) (h : i < ws.length) :
    sumW (ws.take (i + 1)) = sumW (ws.take i) + (ws.getD i 0 : ℤ) := by
  rw [List.take_succ, sumW_append, List.getD, List.get?_eq_get h]
  simp [sumW]
  rw [List.getElem?_eq_getElem h]
  simp [sumW]

theorem getD_map_range (f : ℕ → ℕ) (n j : ℕ) (h : j < n) :
    ((List.range n).map f).getD j 0 = f j := by
  rw [List.getD, List.get?_map, List.get?_range h]
  rfl

/-- Closed form of the pen-position loop when no uint16 wrap-around occurs. -/
theorem xposLoop_formula (spacing : ℤ) (h0 : 0 ≤ spacing) :
    ∀ (ws : List ℕ) (x : ℕ),
      (x : ℤ) + sumW ws + (ws.length : ℤ) * spacing < 65536 →
      xposLoop spacing ws x =
        (List.range ws.length).map fun i =>
          ((x : ℤ) + sumW (ws.take i) + (i : ℤ) * spacing).toNat := by
  intro ws
  induction ws with
  | nil =>
    intro x hb
    simp [xposLoop]
  | cons w rest ih =>
    intro x hb
    have hsr : 0 ≤ sumW rest := sumW_nonneg rest
    have hexp : (((w :: rest).length : ℕ) : ℤ) * spacing =
        (rest.length : ℤ) * spacing + spacing := by
      rw [List.length_cons]
      push_cast
      ring
    have hrs : 0 ≤ (rest.length : ℤ) * spacing := by positivity
    have hsum : sumW (w :: rest) = (w : ℤ) + sumW rest := rfl
    rw [hsum, hexp] at hb
    have hx' : ((x : ℤ) + (w : ℤ) + spacing) % 65536 = (x : ℤ) + (w : ℤ) + spacing := by
      apply Int.emod_eq_of_lt (by positivity)
      linarith
    rw [show xposLoop spacing (w :: rest) x =
        x :: xposLoop spacing rest ((((x : ℤ) + (w : ℤ) + spacing) % 65536).toNat) from rfl]
    rw [hx']
    have hnn : 0 ≤ (x : ℤ) + (w : ℤ) + spacing := by positivity
    have hx'val : (((((x : ℤ) + (w : ℤ) + spacing).toNat : ℕ)) : ℤ) =
        (x : ℤ) + (w : ℤ) + spacing := Int.toNat_of_nonneg hnn
    rw [ih (((x : ℤ) + (w : ℤ) + spacing).toNat) (by rw [hx'val]; linarith)]
    rw [List.length_cons, List.range_succ_eq_map, List.map_cons, List.map_map]
    congr 1
    · simp [sumW]
    · apply List.map_congr_left
      intro i hi
      simp only [Function.comp, Nat.succ_eq_add_one]
      congr 1
      rw [hx'val, List.take_succ_cons]
      simp only [sumW]
      push_cast
      ring

/-- C2 counterexample: for word widths [2, 2, 1] on a justified non-last line
of page width 10 the two gaps encoded by the pen offsets [0, 4, 8] are 2 and
2, summing to 4, not to the spare space 5 — one spare pixel is dropped rather
than assigned to a leading gap. -/
theorem extractLine_gap_loss :
    extractXPositions TextAlign.justified 10 0 [2, 2, 1] false = [0, 4, 8] ∧
    ((4 : ℤ) - 0 - 2) + ((8 : ℤ) - 4 - 2) ≠ 10 - sumW [2, 2, 1] := by
  exact ⟨by decide, by decide⟩

/-- C2 (amended): for a justified non-last line with at least two words, every
inter-word gap equals the single truncated quotient spareSpace tdiv
(wordCount - 1): the pen positions follow the closed form
prefix-sum + i * spacing, each adjacent gap is that uniform spacing, and the
spare space splits as (wordCount - 1) * spacing plus the undistributed
remainder spareSpace % (wordCount - 1), which is assigned to no gap. -/
theorem extractLine_justified_gaps (pageWidth spaceWidth : ℤ) (ws : List ℕ)
    (hc : 2 ≤ ws.length) (hspare : 0 ≤ pageWidth - sumW ws)
    (hfit : sumW ws + (ws.length : ℤ) *
      ((pageWidth - sumW ws).tdiv ((ws.length : ℤ) - 1)) < 65536) :
    extractXPositions TextAlign.justified pageWidth spaceWidth ws false =
      (List.range ws.length).map (fun i =>
        (sumW (ws.take i) + (i : ℤ) *
          ((pageWidth - sumW ws).tdiv ((ws.length : ℤ) - 1))).toNat) ∧
    ((ws.length : ℤ) - 1) * ((pageWidth - sumW ws).tdiv ((ws.length : ℤ) - 1)) +
      (pageWidth - sumW ws) % ((ws.length : ℤ) - 1) = pageWidth - sumW ws ∧
    (∀ i, i + 1 < ws.length →
      ((extractXPositions TextAlign.justified pageWidth spaceWidth ws false).getD
          (i + 1) 0 : ℤ) -
        ((extractXPositions TextAlign.justified pageWidth spaceWidth ws false).getD i 0 : ℤ) -
        (ws.getD i 0 : ℤ) =
        (pageWidth - sumW ws).tdiv ((ws.length : ℤ) - 1)) := by
  have hlen2 : (2 : ℤ) ≤ (ws.length : ℤ) := by exact_mod_cast hc
  have hsp : 0 ≤ (pageWidth - sumW ws).tdiv ((ws.length : ℤ) - 1) :=
    Int.tdiv_nonneg hspare (by omega)
  have hformula : extractXPositions TextAlign.justified pageWidth spaceWidth ws false =
      (List.range ws.length).map fun i =>
        (((0 : ℕ) : ℤ) + sumW (ws.take i) + (i : ℤ) *
          ((pageWidth - sumW ws).tdiv ((ws.length : ℤ) - 1))).toNat := by
    unfold extractXPositions
    rw [if_pos ⟨rfl, rfl, hc⟩, if_neg (by simp), if_neg (by simp)]
    exact xposLoop_formula _ hsp ws 0 (by simpa using hfit)
  refine ⟨?_, ?_, ?_⟩
  · rw [hformula]
    apply List.map_congr_left
    intro i hi
    congr 1
    push_cast
    ring
  · rw [Int.tdiv_eq_ediv hspare (by omega)]
    exact Int.ediv_add_emod _ _
  · intro i hi
    have h1 : i < ws.length := by omega
    rw [hformula, getD_map_range _ _ _ hi, getD_map_range _ _ _ h1]
    have hnn1 : 0 ≤ ((0 : ℕ) : ℤ) + sumW (ws.take (i + 1)) + ((i + 1 : ℕ) : ℤ) *
        ((pageWidth - sumW ws).tdiv ((ws.length : ℤ) - 1)) := by
      have := sumW_nonneg (ws.take (i + 1))
      positivity
    have hnn0 : 0 ≤ ((0 : ℕ) : ℤ) + sumW (ws.take i) + (i : ℤ) *
        ((pageWidth - sumW ws).tdiv ((ws.length : ℤ) - 1)) := by
      have := sumW_nonneg (ws.take i)
      positivity
    rw [Int.toNat_of_nonneg hnn1, Int.toNat_of_nonneg hnn0, sumW_take_succ ws i h1]
    push_cast
    ring

/-- Witness for C2 on widths [2, 2, 1] at page width 10: the two gaps are
uniform and the spare-space decomposition leaves remainder 1 unassigned. -/
theorem extractLine_justified_gaps_witness :
    2 ≤ ([2, 2, 1] : List ℕ).length ∧
    ((([2, 2, 1] : List ℕ).length : ℤ) - 1) *
        ((10 - sumW [2, 2, 1]).tdiv ((([2, 2, 1] : List ℕ).length : ℤ) - 1)) +
      (10 - sumW [2, 2, 1]) % ((([2, 2, 1] : List ℕ).length : ℤ) - 1) =
      10 - sumW [2, 2, 1] :=
  ⟨by decide,
   (extractLine_justified_gaps 10 0 [2, 2, 1] (by decide) (by decide) (by decide)).2.1⟩


/- ## Claim C1: the minimal-raggedness DP of ParsedText::computeLineBreaks -/

/-- MAX_COST = std::numeric_limits<int>::max(). -/
def MAXC : ℤ := 2147483647

/-- Rendered width of the line holding words i..j: word widths plus one space
between each adjacent pair (the running currlen of the DP inner loop). -/
def lineLen (ww : List ℕ) (s : ℤ) (i j : ℕ) : ℤ :=
  sumW ((ww.drop i).take (j + 1 - i)) + ((j - i : ℕ) : ℤ) * s

def violatesGuard (gs : List (ℕ × ℕ)) (i j : ℕ) : Bool :=
  gs.any fun g => decide (i ≤ g.1) && decide (g.2 ≤ j)

/-- Candidate cost of breaking after word j on the line starting at i: zero
for the final word, else squared slack plus the tail cost, clamped at
MAX_COST exactly as the long long comparison does. -/
def lineCost (P : ℤ) (n : ℕ) (dpNext : ℕ → ℤ) (j : ℕ) (len : ℤ) : ℤ :=
  if j = n - 1 then 0 else min ((P - len) * (P - len) + dpNext (j + 1)) MAXC

/-- The inner j-loop of runDp: advance currlen, stop at the first overflowing
candidate, skip guarded spans, keep the strictly best cost. -/
def dpScanGo (P s : ℤ) (gs : List (ℕ × ℕ)) (ww : List ℕ) (n : ℕ) (dpNext : ℕ → ℤ)
    (i : ℕ) : ℕ → ℤ → ℤ × ℕ → ℕ → ℤ × ℕ
  | _, _, best, 0 => best
  | j, currlen, best, m + 1 =>
    if P < currlen + (ww.getD j 0 : ℤ) + s then best
    else if violatesGuard gs i j then
      dpScanGo P s gs ww n dpNext i (j + 1) (currlen + (ww.getD j 0 : ℤ) + s) best m
    else if lineCost P n dpNext j (currlen + (ww.getD j 0 : ℤ) + s) < best.1 then
      dpScanGo P s gs ww n dpNext i (j + 1) (currlen + (ww.getD j 0 : ℤ) + s)
        (lineCost P n dpNext j (currlen + (ww.getD j 0 : ℤ) + s), j) m
    else
      dpScanGo P s gs ww n dpNext i (j + 1) (currlen + (ww.getD j 0 : ℤ) + s) best m

/-- The DP table of runDp, built from the right: dpBuild m lists the (dp, ans)
entries of the last m word indexes, most recent first. -/
def dpBuild (P s : ℤ) (gs : List (ℕ × ℕ)) (ww : List ℕ) : ℕ → List (ℤ × ℕ)
  | 0 => []
  | 1 => [(0, ww.length - 1)]
  | m + 2 =>
    dpScanGo P s gs ww ww.length
        (fun j => ((dpBuild P s gs ww (m + 1)).getD (j - (ww.length - (m + 1))) (0, 0)).1)
        (ww.length - (m + 2)) (ww.length - (m + 2)) (-s) (MAXC, 0) (m + 2) ::
      dpBuild P s gs ww (m + 1)

/-- The (dp, ans) pair of word index i. -/
def dpEntry (P s : ℤ) (gs : List (ℕ × ℕ)) (ww : List ℕ) (i : ℕ) : ℤ × ℕ :=
  (dpBuild P s gs ww ww.length).getD i (0, 0)

/-- The reconstruction loop of runDp: follow ans from word 0, emitting at most
MAX_LINES breaks. -/
def reconGo (ansF : ℕ → ℕ) (n : ℕ) : ℕ → ℕ → List ℕ
  | _, 0 => []
  | cwi, m + 1 =>
    if cwi < n then (ansF cwi + 1) :: reconGo ansF n (ansF cwi + 1) m else []

/-- runDp: the DP over word widths followed by the capped reconstruction. -/
def runDp (P s : ℤ) (gs : List (ℕ × ℕ)) (ww : List ℕ) : List ℕ :=
  reconGo (fun i => (dpEntry P s gs ww i).2) ww.length 0 1000

/-- ParsedText::computeLineBreaks with hyphenation disabled: one runDp pass
with no hyphenation guards. -/
def computeLineBreaksDisabled (P s : ℤ) (ww : List ℕ) : List ℕ :=
  if ww.isEmpty then [] else runDp P s [] ww

/-- A break list is feasible when it is strictly increasing, ends exactly at
the word count, and every line it cuts fits the page width. -/
def feasibleFrom (P s : ℤ) (ww : List ℕ) : ℕ → List ℕ → Bool
  | prev, [] => prev == ww.length
  | prev, b :: rest =>
    decide (prev < b) && decide (b ≤ ww.length) &&
    decide (lineLen ww s prev (b - 1) ≤ P) && feasibleFrom P s ww b rest

/-- Total squared slack of a break list over all lines except the last. -/
def segCost (P s : ℤ) (ww : List ℕ) : ℕ → List ℕ → ℤ
  | _, [] => 0
  | _, [_] => 0
  | prev, b :: b2 :: rest =>
    (P - lineLen ww s prev (b - 1)) * (P - lineLen ww s prev (b - 1)) +
      segCost P s ww b (b2 :: rest)


/- ### Line length arithmetic -/

theorem sumW_take_succ' (l : List ℕ) (k : ℕ) :
    sumW (l.take (k + 1)) = sumW (l.take k) + (l.getD k 0 : ℤ) := by
  by_cases h : k < l.length
  · exact sumW_take_succ l k h
  · rw [List.take_of_length_le (by omega), List.take_of_length_le (by omega), List.getD,
      List.get?_eq_none.mpr (by omega)]
    simp

theorem getD_drop (l : List ℕ) (i k : ℕ) : (l.drop i).getD k 0 = l.getD (i + k) 0 := by
  rw [List.getD, List.getD, List.get?_drop]

theorem lineLen_base (ww : List ℕ) (s : ℤ) (i : ℕ) :
    lineLen ww s i i = (ww.getD i 0 : ℤ) := by
  unfold lineLen
  rw [show i + 1 - i = 0 + 1 by omega, show i - i = 0 by omega, sumW_take_succ', getD_drop]
  simp [sumW]

theorem lineLen_succ (ww : List ℕ) (s : ℤ) (i j : ℕ) (hij : i ≤ j) :
    lineLen ww s i (j + 1) = lineLen ww s i j + (ww.getD (j + 1) 0 : ℤ) + s := by
  unfold lineLen
  rw [show j + 1 + 1 - i = (j + 1 - i) + 1 by omega, sumW_take_succ', getD_drop,
    show i + (j + 1 - i) = j + 1 by omega, show j + 1 - i = (j - i) + 1 by omega]
  push_cast
  ring

theorem lineLen_mono (ww : List ℕ) (s : ℤ) (hs : 0 ≤ s) (i a b : ℕ) (hia : i ≤ a)
    (hab : a ≤ b) : lineLen ww s i a ≤ lineLen ww s i b := by
  induction b, hab using Nat.le_induction with
  | base => exact le_rfl
  | succ b hab ih =>
    rw [lineLen_succ ww s i b (by omega)]
    have : (0 : ℤ) ≤ (ww.getD (b + 1) 0 : ℤ) := by positivity
    omega

theorem lineLen_nonneg (ww : List ℕ) (s : ℤ) (hs : 0 ≤ s) (i j : ℕ) :
    0 ≤ lineLen ww s i j := by
  unfold lineLen
  have h1 := sumW_nonneg ((ww.drop i).take (j + 1 - i))
  have h2 : (0 : ℤ) ≤ ((j - i : ℕ) : ℤ) * s := by positivity
  omega

/- ### The inner scan of runDp -/

/-- The scan only improves the best cost; every in-range fitting candidate
bounds the result; and the result is the untouched best or an achieved
candidate cost. -/
theorem dpScanGo_spec (P s : ℤ) (ww : List ℕ) (n : ℕ) (f : ℕ → ℤ) (i : ℕ)
    (hs : 0 ≤ s) :
    ∀ (m j : ℕ) (currlen : ℤ) (best : ℤ × ℕ), i ≤ j → m + j = n →
      currlen + (ww.getD j 0 : ℤ) + s = lineLen ww s i j →
      (dpScanGo P s [] ww n f i j currlen best m).1 ≤ best.1 ∧
      (∀ js, j ≤ js → js + 1 ≤ n → lineLen ww s i js ≤ P →
        (dpScanGo P s [] ww n f i j currlen best m).1 ≤
          lineCost P n f js (lineLen ww s i js)) ∧
      (dpScanGo P s [] ww n f i j currlen best m = best ∨
        ∃ js, j ≤ js ∧ js + 1 ≤ n ∧ lineLen ww s i js ≤ P ∧
          dpScanGo P s [] ww n f i j currlen best m =
            (lineCost P n f js (lineLen ww s i js), js)) := by
  intro m
  induction m with
  | zero =>
    intro j currlen best hij hmj hcl
    refine ⟨le_rfl, fun js h1 h2 h3 => by omega, Or.inl rfl⟩
  | succ m ih =>
    intro j currlen best hij hmj hcl
    have hstep : ∀ b : ℤ × ℕ,
        dpScanGo P s [] ww n f i j currlen b (m + 1) =
          if P < currlen + (ww.getD j 0 : ℤ) + s then b
          else if lineCost P n f j (currlen + (ww.getD j 0 : ℤ) + s) < b.1 then
            dpScanGo P s [] ww n f i (j + 1) (currlen + (ww.getD j 0 : ℤ) + s)
              (lineCost P n f j (currlen + (ww.getD j 0 : ℤ) + s), j) m
          else
            dpScanGo P s [] ww n f i (j + 1) (currlen + (ww.getD j 0 : ℤ) + s) b m := by
      intro b
      show (if P < currlen + (ww.getD j 0 : ℤ) + s then b
        else if violatesGuard [] i j then _ else _) = _
      simp only [violatesGuard, List.any_nil, Bool.false_eq_true, if_false]
    have hcl' : (currlen + (ww.getD j 0 : ℤ) + s) + (ww.getD (j + 1) 0 : ℤ) + s =
        lineLen ww s i (j + 1) := by
      rw [lineLen_succ ww s i j hij, hcl]
    by_cases hP : P < currlen + (ww.getD j 0 : ℤ) + s
    · rw [hstep best, if_pos hP]
      refine ⟨le_rfl, fun js h1 h2 h3 => ?_, Or.inl rfl⟩
      exfalso
      have := lineLen_mono ww s hs i j js hij h1
      rw [← hcl] at this
      omega
    · rw [hstep best, if_neg hP, hcl]
      rw [hcl] at hP
      rw [hcl] at hcl'
      by_cases hlt : lineCost P n f j (lineLen ww s i j) < best.1
      · rw [if_pos hlt]
        obtain ⟨hA, hB, hC⟩ := ih (j + 1) (lineLen ww s i j)
          (lineCost P n f j (lineLen ww s i j), j) (by omega) (by omega) hcl'
        refine ⟨le_trans hA (le_of_lt hlt), fun js h1 h2 h3 => ?_, ?_⟩
        · rcases Nat.eq_or_lt_of_le h1 with rfl | hjs
          · exact hA
          · exact hB js (by omega) h2 h3
        · rcases hC with hC | ⟨js, hj1, hj2, hj3, hj4⟩
          · exact Or.inr ⟨j, le_rfl, by omega, by omega, hC⟩
          · exact Or.inr ⟨js, by omega, hj2, hj3, hj4⟩
      · rw [if_neg hlt]
        obtain ⟨hA, hB, hC⟩ := ih (j + 1) (lineLen ww s i j) best (by omega) (by omega) hcl'
        refine ⟨hA, fun js h1 h2 h3 => ?_, ?_⟩
        · rcases Nat.eq_or_lt_of_le h1 with rfl | hjs
          · omega
          · exact hB js (by omega) h2 h3
        · rcases hC with hC | ⟨js, hj1, hj2, hj3, hj4⟩
          · exact Or.inl hC
          · exact Or.inr ⟨js, by omega, hj2, hj3, hj4⟩


/- ### Locating the DP table entries -/

theorem dpBuild_cons (P s : ℤ) (gs : List (ℕ × ℕ)) (ww : List ℕ) (m : ℕ) :
    dpBuild P s gs ww (m + 2) =
      dpScanGo P s gs ww ww.length
          (fun j => ((dpBuild P s gs ww (m + 1)).getD (j - (ww.length - (m + 1))) (0, 0)).1)
          (ww.length - (m + 2)) (ww.length - (m + 2)) (-s) (MAXC, 0) (m + 2) ::
        dpBuild P s gs ww (m + 1) := rfl

theorem dpBuild_shift (P s : ℤ) (gs : List (ℕ × ℕ)) (ww : List ℕ) (a m k : ℕ)
    (hk : k < m) :
    (dpBuild P s gs ww (m + a)).getD (a + k) (0, 0) = (dpBuild P s gs ww m).getD k (0, 0) := by
  induction a with
  | zero => simp
  | succ b ih =>
    obtain ⟨c, hc⟩ : ∃ c, m + (b + 1) = c + 2 := ⟨m + b + 1 - 2, by omega⟩
    have hc1 : c + 1 = m + b := by omega
    rw [hc, dpBuild_cons, show (b + 1) + k = (b + k) + 1 by omega, List.getD_cons_succ, hc1, ih]

theorem dpEntry_eq_head (P s : ℤ) (gs : List (ℕ × ℕ)) (ww : List ℕ) (i : ℕ)
    (hi : i < ww.length) :
    dpEntry P s gs ww i = (dpBuild P s gs ww (ww.length - i)).getD 0 (0, 0) := by
  unfold dpEntry
  have h := dpBuild_shift P s gs ww i (ww.length - i) 0 (by omega)
  rw [show ww.length - i + i = ww.length by omega, show i + 0 = i by omega] at h
  exact h

theorem dpEntry_last (P s : ℤ) (gs : List (ℕ × ℕ)) (ww : List ℕ) (hne : ww ≠ []) :
    dpEntry P s gs ww (ww.length - 1) = (0, ww.length - 1) := by
  have hlen : 1 ≤ ww.length := by
    cases ww
    · exact absurd rfl hne
    · simp
  rw [dpEntry_eq_head P s gs ww (ww.length - 1) (by omega),
    show ww.length - (ww.length - 1) = 1 by omega]
  rfl

theorem dpEntry_scan (P s : ℤ) (gs : List (ℕ × ℕ)) (ww : List ℕ) (i : ℕ)
    (hi : i + 1 < ww.length) :
    dpEntry P s gs ww i =
      dpScanGo P s gs ww ww.length
        (fun j => ((dpBuild P s gs ww (ww.length - i - 1)).getD (j - (i + 1)) (0, 0)).1)
        i i (-s) (MAXC, 0) (ww.length - i) := by
  rw [dpEntry_eq_head P s gs ww i (by omega)]
  obtain ⟨m, hm⟩ : ∃ m, ww.length - i = m + 2 := ⟨ww.length - i - 2, by omega⟩
  rw [hm, dpBuild_cons, List.getD_cons_zero]
  simp only [show ww.length - (m + 2) = i by omega, show ww.length - (m + 1) = i + 1 by omega,
    show m + 1 = ww.length - i - 1 by omega, ← hm]
  simp only [show ww.length - (ww.length - i) = i by omega,
    show ww.length - (ww.length - i - 1) = i + 1 by omega]

theorem dpEntry_next (P s : ℤ) (gs : List (ℕ × ℕ)) (ww : List ℕ) (i j : ℕ)
    (hij : i + 1 ≤ j) (hj : j < ww.length) :
    (dpBuild P s gs ww (ww.length - i - 1)).getD (j - (i + 1)) (0, 0) =
      dpEntry P s gs ww j := by
  unfold dpEntry
  have h := dpBuild_shift P s gs ww (i + 1) (ww.length - i - 1) (j - (i + 1)) (by omega)
  rw [show ww.length - i - 1 + (i + 1) = ww.length by omega,
    show (i + 1) + (j - (i + 1)) = j by omega] at h
  exact h.symm


/- ### The DP invariant -/

/-- Exactness and bounds of the DP table when no cost ever reaches the
MAX_COST clamp: dp is nonnegative, bounded by (n-1-i) * P^2, ans is a
feasible in-range break, dp equals the cost through ans, and dp is a lower
bound on the cost through every in-range fitting break. -/
theorem dp_inv (P s : ℤ) (ww : List ℕ) (hs : 0 ≤ s) (hw : ∀ w ∈ ww, (w : ℤ) ≤ P)
    (hb : ((ww.length : ℤ) - 1) * (P * P) < MAXC) :
    ∀ d i, i < ww.length → d = ww.length - i →
      0 ≤ (dpEntry P s [] ww i).1 ∧
      (dpEntry P s [] ww i).1 ≤ ((ww.length - 1 - i : ℕ) : ℤ) * (P * P) ∧
      i ≤ (dpEntry P s [] ww i).2 ∧ (dpEntry P s [] ww i).2 + 1 ≤ ww.length ∧
      lineLen ww s i (dpEntry P s [] ww i).2 ≤ P ∧
      (dpEntry P s [] ww i).1 =
        (if (dpEntry P s [] ww i).2 = ww.length - 1 then 0
         else
           (P - lineLen ww s i (dpEntry P s [] ww i).2) *
               (P - lineLen ww s i (dpEntry P s [] ww i).2) +
             (dpEntry P s [] ww ((dpEntry P s [] ww i).2 + 1)).1) ∧
      ∀ js, i ≤ js → js + 1 ≤ ww.length → lineLen ww s i js ≤ P →
        (dpEntry P s [] ww i).1 ≤
          (if js = ww.length - 1 then 0
           else (P - lineLen ww s i js) * (P - lineLen ww s i js) +
             (dpEntry P s [] ww (js + 1)).1) := by
  intro d
  induction d using Nat.strong_induction_on with
  | _ d ih =>
  intro i hi hd
  have hwD : ∀ k, k < ww.length → (ww.getD k 0 : ℤ) ≤ P := fun k hk =>
    hw _ (getD_mem_of_lt ww k 0 hk)
  have hQ : (0 : ℤ) ≤ P * P := mul_self_nonneg P
  by_cases hlast : i = ww.length - 1
  · subst hlast
    rw [dpEntry_last P s [] ww (by intro h; rw [h] at hi; simp at hi)]
    refine ⟨le_rfl, ?_, le_rfl, show ww.length - 1 + 1 ≤ ww.length by omega, ?_, ?_, ?_⟩
    · show (0 : ℤ) ≤ _
      positivity
    · show lineLen ww s (ww.length - 1) (ww.length - 1) ≤ P
      rw [lineLen_base]
      exact hwD _ (by omega)
    · show (0 : ℤ) = if ww.length - 1 = ww.length - 1 then 0 else _
      rw [if_pos rfl]
    · intro js h1 h2 h3
      have hjs : js = ww.length - 1 := by omega
      rw [if_pos hjs]
  · have hi1 : i + 1 < ww.length := by omega
    rw [dpEntry_scan P s [] ww i hi1]
    obtain ⟨hA, hB, hC⟩ := dpScanGo_spec P s ww ww.length
      (fun j => ((dpBuild P s [] ww (ww.length - i - 1)).getD (j - (i + 1)) (0, 0)).1) i hs
      (ww.length - i) i (-s) (MAXC, 0) le_rfl (by omega)
      (by rw [lineLen_base]; ring)
    have hfd : ∀ j, i + 1 ≤ j → j < ww.length →
        ((dpBuild P s [] ww (ww.length - i - 1)).getD (j - (i + 1)) (0, 0)).1 =
          (dpEntry P s [] ww j).1 := by
      intro j h1 h2
      rw [dpEntry_next P s [] ww i j h1 h2]
    have ihnext : ∀ j, i + 1 ≤ j → j < ww.length →
        0 ≤ (dpEntry P s [] ww j).1 ∧
          (dpEntry P s [] ww j).1 ≤ ((ww.length - 1 - j : ℕ) : ℤ) * (P * P) := by
      intro j h1 h2
      obtain ⟨a, b, -⟩ := ih (ww.length - j) (by omega) j h2 rfl
      exact ⟨a, b⟩
    have hcost_eq : ∀ js, i ≤ js → js + 1 ≤ ww.length →
        lineCost P ww.length
            (fun j => ((dpBuild P s [] ww (ww.length - i - 1)).getD (j - (i + 1)) (0, 0)).1)
            js (lineLen ww s i js) =
          (if js = ww.length - 1 then 0
           else min ((P - lineLen ww s i js) * (P - lineLen ww s i js) +
             (dpEntry P s [] ww (js + 1)).1) MAXC) := by
      intro js h1 h2
      unfold lineCost
      by_cases hjn : js = ww.length - 1
      · rw [if_pos hjn, if_pos hjn]
      · rw [if_neg hjn, if_neg hjn]
        simp only []
        rw [hfd (js + 1) (by omega) (by omega)]
    have hsq : ∀ js, lineLen ww s i js ≤ P →
        (P - lineLen ww s i js) * (P - lineLen ww s i js) ≤ P * P := by
      intro js h3
      have h0 : 0 ≤ lineLen ww s i js := lineLen_nonneg ww s hs i js
      nlinarith
    have hcost_bound : ∀ js, i ≤ js → js + 1 ≤ ww.length → lineLen ww s i js ≤ P →
        0 ≤ (if js = ww.length - 1 then (0 : ℤ)
             else (P - lineLen ww s i js) * (P - lineLen ww s i js) +
               (dpEntry P s [] ww (js + 1)).1) ∧
        (if js = ww.length - 1 then (0 : ℤ)
             else (P - lineLen ww s i js) * (P - lineLen ww s i js) +
               (dpEntry P s [] ww (js + 1)).1) ≤ ((ww.length - 1 - i : ℕ) : ℤ) * (P * P) := by
      intro js h1 h2 h3
      by_cases hjn : js = ww.length - 1
      · rw [if_pos hjn]
        exact ⟨le_rfl, by positivity⟩
      · rw [if_neg hjn]
        obtain ⟨ha, hbB⟩ := ihnext (js + 1) (by omega) (by omega)
        have hsqj := hsq js h3
        have hsq0 : 0 ≤ (P - lineLen ww s i js) * (P - lineLen ww s i js) :=
          mul_self_nonneg _
        have hc1 : ((ww.length - 1 - (js + 1) : ℕ) : ℤ) + 1 ≤
            ((ww.length - 1 - i : ℕ) : ℤ) := by
          push_cast
          omega
        have hmul : (((ww.length - 1 - (js + 1) : ℕ) : ℤ) + 1) * (P * P) ≤
            ((ww.length - 1 - i : ℕ) : ℤ) * (P * P) :=
          mul_le_mul_of_nonneg_right hc1 hQ
        have hexp : (((ww.length - 1 - (js + 1) : ℕ) : ℤ) + 1) * (P * P) =
            ((ww.length - 1 - (js + 1) : ℕ) : ℤ) * (P * P) + P * P := by ring
        constructor
        · linarith
        · linarith
    have hbnd : ((ww.length - 1 - i : ℕ) : ℤ) * (P * P) < MAXC := by
      have hcast : ((ww.length - 1 - i : ℕ) : ℤ) ≤ (ww.length : ℤ) - 1 := by
        push_cast
        omega
      have := mul_le_mul_of_nonneg_right hcast hQ
      linarith
    have hfit_i : lineLen ww s i i ≤ P := by
      rw [lineLen_base]
      exact hwD i (by omega)
    have hub0 := hB i le_rfl (by omega) hfit_i
    rw [hcost_eq i le_rfl (by omega), if_neg hlast] at hub0
    obtain ⟨hnn_i, hub_i⟩ := hcost_bound i le_rfl (by omega) hfit_i
    rw [if_neg hlast] at hnn_i hub_i
    rw [min_eq_left (by linarith)] at hub0
    rcases hC with hC | ⟨js, hj1, hj2, hj3, hj4⟩
    · exfalso
      rw [hC] at hub0
      have hM : (MAXC : ℤ) ≤ (P - lineLen ww s i i) * (P - lineLen ww s i i) +
          (dpEntry P s [] ww (i + 1)).1 := hub0
      linarith
    · rw [hj4] at hB ⊢
      have hmin_eq : (if js = ww.length - 1 then (0 : ℤ)
           else min ((P - lineLen ww s i js) * (P - lineLen ww s i js) +
             (dpEntry P s [] ww (js + 1)).1) MAXC) =
          (if js = ww.length - 1 then (0 : ℤ)
           else (P - lineLen ww s i js) * (P - lineLen ww s i js) +
             (dpEntry P s [] ww (js + 1)).1) := by
        by_cases hjn : js = ww.length - 1
        · rw [if_pos hjn, if_pos hjn]
        · obtain ⟨-, hcub⟩ := hcost_bound js hj1 hj2 hj3
          rw [if_neg hjn] at hcub
          rw [if_neg hjn, if_neg hjn, min_eq_left (by linarith)]
      obtain ⟨hcnn, hcub⟩ := hcost_bound js hj1 hj2 hj3
      rw [hcost_eq js hj1 hj2, hmin_eq]
      refine ⟨hcnn, hcub, hj1, hj2, hj3, rfl, ?_⟩
      intro js' h1' h2' h3'
      have h7 := hB js' h1' h2' h3'
      rw [hcost_eq js hj1 hj2, hmin_eq, hcost_eq js' h1' h2'] at h7
      by_cases hjn : js' = ww.length - 1
      · rw [if_pos hjn] at h7 ⊢
        exact h7
      · rw [if_neg hjn] at h7 ⊢
        exact le_trans h7 (min_le_left _ _)


/- ### Reconstruction and optimality -/

/-- The reconstruction loop emits a feasible break list whose cost is exactly
dp at its start index, given enough of the 1000-line budget. -/
theorem recon_spec (P s : ℤ) (ww : List ℕ) (hs : 0 ≤ s) (hw : ∀ w ∈ ww, (w : ℤ) ≤ P)
    (hb : ((ww.length : ℤ) - 1) * (P * P) < MAXC) :
    ∀ d cwi, cwi < ww.length → d = ww.length - cwi →
      ∀ fuel, ww.length - cwi ≤ fuel →
        feasibleFrom P s ww cwi
            (reconGo (fun k => (dpEntry P s [] ww k).2) ww.length cwi fuel) = true ∧
        segCost P s ww cwi
            (reconGo (fun k => (dpEntry P s [] ww k).2) ww.length cwi fuel) =
          (dpEntry P s [] ww cwi).1 := by
  intro d
  induction d using Nat.strong_induction_on with
  | _ d ih =>
  intro cwi hcwi hd fuel hfuel
  obtain ⟨h0, h1, h2, h3, h4, h5, h6⟩ :=
    dp_inv P s ww hs hw hb (ww.length - cwi) cwi hcwi rfl
  obtain ⟨f, rfl⟩ : ∃ f, fuel = f + 1 := ⟨fuel - 1, by omega⟩
  rw [show reconGo (fun k => (dpEntry P s [] ww k).2) ww.length cwi (f + 1) =
      if cwi < ww.length then ((dpEntry P s [] ww cwi).2 + 1) ::
        reconGo (fun k => (dpEntry P s [] ww k).2) ww.length
          ((dpEntry P s [] ww cwi).2 + 1) f
      else [] from rfl, if_pos hcwi]
  by_cases hlastl : (dpEntry P s [] ww cwi).2 = ww.length - 1
  · have hb1 : (dpEntry P s [] ww cwi).2 + 1 = ww.length := by omega
    have hrest : reconGo (fun k => (dpEntry P s [] ww k).2) ww.length
        ((dpEntry P s [] ww cwi).2 + 1) f = [] := by
      cases f with
      | zero => rfl
      | succ f2 =>
        rw [show reconGo (fun k => (dpEntry P s [] ww k).2) ww.length
            ((dpEntry P s [] ww cwi).2 + 1) (f2 + 1) =
          if (dpEntry P s [] ww cwi).2 + 1 < ww.length then
            ((dpEntry P s [] ww ((dpEntry P s [] ww cwi).2 + 1)).2 + 1) ::
              reconGo (fun k => (dpEntry P s [] ww k).2) ww.length
                ((dpEntry P s [] ww ((dpEntry P s [] ww cwi).2 + 1)).2 + 1) f2
          else [] from rfl, if_neg (by omega)]
    rw [hrest]
    constructor
    · show (decide (cwi < (dpEntry P s [] ww cwi).2 + 1) &&
        decide ((dpEntry P s [] ww cwi).2 + 1 ≤ ww.length) &&
        decide (lineLen ww s cwi ((dpEntry P s [] ww cwi).2 + 1 - 1) ≤ P) &&
        feasibleFrom P s ww ((dpEntry P s [] ww cwi).2 + 1) []) = true
      show (decide (cwi < (dpEntry P s [] ww cwi).2 + 1) &&
        decide ((dpEntry P s [] ww cwi).2 + 1 ≤ ww.length) &&
        decide (lineLen ww s cwi ((dpEntry P s [] ww cwi).2 + 1 - 1) ≤ P) &&
        ((dpEntry P s [] ww cwi).2 + 1 == ww.length)) = true
      simp only [Bool.and_eq_true, decide_eq_true_eq, beq_iff_eq]
      refine ⟨⟨⟨by omega, by omega⟩, ?_⟩, hb1⟩
      rw [show (dpEntry P s [] ww cwi).2 + 1 - 1 = (dpEntry P s [] ww cwi).2 by omega]
      exact h4
    · show (0 : ℤ) = (dpEntry P s [] ww cwi).1
      rw [h5, if_pos hlastl]
  · have hblt : (dpEntry P s [] ww cwi).2 + 1 < ww.length := by omega
    obtain ⟨hf1, hf2⟩ := ih (ww.length - ((dpEntry P s [] ww cwi).2 + 1)) (by omega)
      ((dpEntry P s [] ww cwi).2 + 1) hblt rfl f (by omega)
    obtain ⟨f2, rfl⟩ : ∃ f2, f = f2 + 1 := ⟨f - 1, by omega⟩
    have hcons : reconGo (fun k => (dpEntry P s [] ww k).2) ww.length
        ((dpEntry P s [] ww cwi).2 + 1) (f2 + 1) =
        ((dpEntry P s [] ww ((dpEntry P s [] ww cwi).2 + 1)).2 + 1) ::
          reconGo (fun k => (dpEntry P s [] ww k).2) ww.length
            ((dpEntry P s [] ww ((dpEntry P s [] ww cwi).2 + 1)).2 + 1) f2 := by
      rw [show reconGo (fun k => (dpEntry P s [] ww k).2) ww.length
          ((dpEntry P s [] ww cwi).2 + 1) (f2 + 1) =
        if (dpEntry P s [] ww cwi).2 + 1 < ww.length then
          ((dpEntry P s [] ww ((dpEntry P s [] ww cwi).2 + 1)).2 + 1) ::
            reconGo (fun k => (dpEntry P s [] ww k).2) ww.length
              ((dpEntry P s [] ww ((dpEntry P s [] ww cwi).2 + 1)).2 + 1) f2
        else [] from rfl, if_pos hblt]
    constructor
    · show (decide (cwi < (dpEntry P s [] ww cwi).2 + 1) &&
        decide ((dpEntry P s [] ww cwi).2 + 1 ≤ ww.length) &&
        decide (lineLen ww s cwi ((dpEntry P s [] ww cwi).2 + 1 - 1) ≤ P) &&
        feasibleFrom P s ww ((dpEntry P s [] ww cwi).2 + 1)
          (reconGo (fun k => (dpEntry P s [] ww k).2) ww.length
            ((dpEntry P s [] ww cwi).2 + 1) (f2 + 1))) = true
      rw [hf1]
      simp only [Bool.and_eq_true, decide_eq_true_eq]
      refine ⟨⟨⟨by omega, by omega⟩, ?_⟩, trivial⟩
      rw [show (dpEntry P s [] ww cwi).2 + 1 - 1 = (dpEntry P s [] ww cwi).2 by omega]
      exact h4
    · rw [hcons]
      show (P - lineLen ww s cwi ((dpEntry P s [] ww cwi).2 + 1 - 1)) *
          (P - lineLen ww s cwi ((dpEntry P s [] ww cwi).2 + 1 - 1)) +
          segCost P s ww ((dpEntry P s [] ww cwi).2 + 1)
            (((dpEntry P s [] ww ((dpEntry P s [] ww cwi).2 + 1)).2 + 1) ::
              reconGo (fun k => (dpEntry P s [] ww k).2) ww.length
                ((dpEntry P s [] ww ((dpEntry P s [] ww cwi).2 + 1)).2 + 1) f2) =
          (dpEntry P s [] ww cwi).1
      rw [← hcons, hf2, h5, if_neg hlastl,
        show (dpEntry P s [] ww cwi).2 + 1 - 1 = (dpEntry P s [] ww cwi).2 by omega]

/-- dp at any start index lower-bounds the cost of every feasible break list. -/
theorem dpv_le_segCost (P s : ℤ) (ww : List ℕ) (hs : 0 ≤ s)
    (hw : ∀ w ∈ ww, (w : ℤ) ≤ P) (hb : ((ww.length : ℤ) - 1) * (P * P) < MAXC) :
    ∀ (bs : List ℕ) (prev : ℕ), prev < ww.length →
      feasibleFrom P s ww prev bs = true →
      (dpEntry P s [] ww prev).1 ≤ segCost P s ww prev bs := by
  intro bs
  induction bs with
  | nil =>
    intro prev hprev hf
    exfalso
    simp only [feasibleFrom, beq_iff_eq] at hf
    omega
  | cons b rest ihb =>
    intro prev hprev hf
    simp only [feasibleFrom, Bool.and_eq_true, decide_eq_true_eq] at hf
    obtain ⟨⟨⟨hpb, hbn⟩, hfit⟩, hrest⟩ := hf
    obtain ⟨h0, h1, h2, h3, h4, h5, h6⟩ :=
      dp_inv P s ww hs hw hb (ww.length - prev) prev hprev rfl
    cases rest with
    | nil =>
      have hbn' : b = ww.length := by
        simpa only [feasibleFrom, beq_iff_eq] using hrest
      show (dpEntry P s [] ww prev).1 ≤ 0
      have h7 := h6 (b - 1) (by omega) (by omega) hfit
      rw [if_pos (by omega : b - 1 = ww.length - 1)] at h7
      exact h7
    | cons b2 rest2 =>
      have hblt : b < ww.length := by
        simp only [feasibleFrom, Bool.and_eq_true, decide_eq_true_eq] at hrest
        omega
      have hIH := ihb b hblt hrest
      have h7 := h6 (b - 1) (by omega) (by omega) hfit
      rw [if_neg (by omega : ¬b - 1 = ww.length - 1),
        show b - 1 + 1 = b by omega] at h7
      show (dpEntry P s [] ww prev).1 ≤
        (P - lineLen ww s prev (b - 1)) * (P - lineLen ww s prev (b - 1)) +
          segCost P s ww b (b2 :: rest2)
      linarith

set_option maxRecDepth 10000 in
/-- C1 counterexample: with widths [0, 1, 65535] on page width 65535 and zero
space width — every single word fits the page — the MAX_COST clamp keeps the
DP from ever updating ans, and the reconstruction emits the break 1 a
thousand times: the returned break list is not even a partition of the three
words, although a feasible partition exists. -/
theorem computeLineBreaks_clamp_degenerate :
    computeLineBreaksDisabled 65535 0 [0, 1, 65535] = List.replicate 1000 1 ∧
    feasibleFrom 65535 0 [0, 1, 65535] 0
      (computeLineBreaksDisabled 65535 0 [0, 1, 65535]) = false ∧
    feasibleFrom 65535 0 [0, 1, 65535] 0 [1, 2, 3] = true ∧
    (∀ w ∈ ([0, 1, 65535] : List ℕ), (w : ℤ) ≤ 65535) := by
  refine ⟨by decide, by decide, by decide, by decide⟩

/-- C1 (amended): when hyphenation is disabled, every word fits the page, the
space width is nonnegative, there are at most 1000 words, and no candidate
cost can reach the MAX_COST clamp ((n-1) * pageWidth^2 < 2^31 - 1), the break
list returned by ParsedText::computeLineBreaks is a feasible partition of the
words and its total squared slack over all lines except the last is minimal
among all feasible break lists. -/
theorem computeLineBreaks_optimal (P s : ℤ) (ww : List ℕ)
    (hne : ww ≠ []) (hn : ww.length ≤ 1000)
    (hw : ∀ w ∈ ww, (w : ℤ) ≤ P) (hs : 0 ≤ s)
    (hb : ((ww.length : ℤ) - 1) * (P * P) < MAXC) :
    feasibleFrom P s ww 0 (computeLineBreaksDisabled P s ww) = true ∧
    ∀ bs, feasibleFrom P s ww 0 bs = true →
      segCost P s ww 0 (computeLineBreaksDisabled P s ww) ≤ segCost P s ww 0 bs := by
  have hlen : 0 < ww.length := by
    cases ww
    · exact absurd rfl hne
    · simp
  have hemp : ww.isEmpty = false := by
    cases ww
    · exact absurd rfl hne
    · rfl
  have hcb : computeLineBreaksDisabled P s ww =
      reconGo (fun k => (dpEntry P s [] ww k).2) ww.length 0 1000 := by
    unfold computeLineBreaksDisabled runDp
    rw [hemp]
    simp only [Bool.false_eq_true, if_false]
  obtain ⟨hfeas, hcost⟩ := recon_spec P s ww hs hw hb ww.length 0 hlen (by omega)
    1000 (by omega)
  rw [hcb, hcost]
  exact ⟨hfeas, fun bs hbs => dpv_le_segCost P s ww hs hw hb bs 0 hlen hbs⟩

/-- Witness for C1 on widths [3, 4, 2], page width 10, space width 1. -/
theorem computeLineBreaks_optimal_witness :
    feasibleFrom 10 1 [3, 4, 2] 0 (computeLineBreaksDisabled 10 1 [3, 4, 2]) = true ∧
    segCost 10 1 [3, 4, 2] 0 (computeLineBreaksDisabled 10 1 [3, 4, 2]) ≤
      segCost 10 1 [3, 4, 2] 0 [1, 2, 3] := by
  have h := computeLineBreaks_optimal 10 1 [3, 4, 2] (by decide) (by decide)
    (by decide) (by decide) (by decide)
  exact ⟨h.1, h.2 [1, 2, 3] (by decide)⟩


/- ## Claim C3: termination of layoutAndExtractLines and the 1000-line cap -/

theorem isAlphabetic_not_hyphen (cp : ℕ) (h : isAlphabetic cp = true) :
    isExplicitHyphen cp = false := by
  simp only [isAlphabetic, isLatinLetter, isCyrillicLetter, Bool.or_eq_true,
    Bool.and_eq_true, decide_eq_true_eq] at h
  rw [Bool.eq_false_iff]
  intro hcontra
  simp only [isExplicitHyphen, Bool.or_eq_true, beq_iff_eq] at hcontra
  omega

/-- Trimming strips exactly a leading all-punctuation block when the remainder
starts and ends with non-punctuation. -/
theorem trim_eq (A M : List CodepointInfo) (hA : ∀ c ∈ A, isPunctuation c.value = true)
    (hM : M ≠ []) (hhead : ∀ h : M ≠ [], isPunctuation (M.head h).value = false)
    (hlast : ∀ h : M ≠ [], isPunctuation (M.getLast h).value = false) :
    trimSurroundingPunctuation (A ++ M) = M := by
  unfold trimSurroundingPunctuation
  have hdropA : (A ++ M).dropWhile (fun c => isPunctuation c.value) =
      M.dropWhile fun c => isPunctuation c.value := by
    induction A with
    | nil => simp
    | cons a t ih =>
      rw [List.cons_append, List.dropWhile_cons_of_pos (by simp [hA a (by simp)])]
      exact ih fun c hc => hA c (by simp [hc])
  have hdropM : M.dropWhile (fun c => isPunctuation c.value) = M := by
    rcases M with _ | ⟨m, t⟩
    · rfl
    · rw [List.dropWhile_cons_of_neg]
      have hh := hhead (by simp)
      simp only [List.head_cons] at hh
      simp [hh]
  rw [hdropA, hdropM]
  have hrne : M.reverse ≠ [] := by simp [hM]
  have hrev : M.reverse.dropWhile (fun c => isPunctuation c.value) = M.reverse := by
    rcases hrv : M.reverse with _ | ⟨r, t⟩
    · rfl
    · have hr : M.getLast hM = r := by
        rw [List.getLast_eq_head_reverse hM]
        simp [hrv]
      rw [List.dropWhile_cons_of_neg]
      have hl := hlast hM
      rw [hr] at hl
      simp [hl]
  rw [hrev, List.reverse_reverse]


/-- Count of adjacent (hyphen, letter) value pairs in a codepoint value list:
the positions explicit hyphenation can split at. -/
def hyphenLetterPairs : List ℕ → ℕ
  | [] => 0
  | [_] => 0
  | a :: b :: t =>
    (if isExplicitHyphen a && isAlphabetic b then 1 else 0) + hyphenLetterPairs (b :: t)

theorem hyphenLetterPairs_append_ge (xs ys : List ℕ) (a b : ℕ)
    (hab : (isExplicitHyphen a && isAlphabetic b) = true) :
    ∀ (hlast : xs.getLast? = some a) (hhead : ys.head? = some b),
      hyphenLetterPairs xs + hyphenLetterPairs ys + 1 ≤ hyphenLetterPairs (xs ++ ys) := by
  induction xs with
  | nil =>
    intro hlast hhead
    simp at hlast
  | cons x t ih =>
    intro hlast hhead
    rcases t with _ | ⟨x2, t2⟩
    · rcases ys with _ | ⟨y, ys2⟩
      · simp at hhead
      · simp only [List.getLast?_singleton, Option.some.injEq] at hlast
        simp only [List.head?_cons, Option.some.injEq] at hhead
        show hyphenLetterPairs [x] + hyphenLetterPairs (y :: ys2) + 1 ≤
          (if isExplicitHyphen x && isAlphabetic y then 1 else 0) +
            hyphenLetterPairs (y :: ys2)
        rw [if_pos (by rw [hlast, hhead]; exact hab)]
        show 0 + _ + 1 ≤ _
        omega
    · rw [List.getLast?_cons_cons] at hlast
      have hrec := ih hlast hhead
      show hyphenLetterPairs (x :: x2 :: t2) + hyphenLetterPairs ys + 1 ≤
        (if isExplicitHyphen x && isAlphabetic x2 then 1 else 0) +
          hyphenLetterPairs ((x2 :: t2) ++ ys)
      have hsplit : hyphenLetterPairs (x :: x2 :: t2) =
          (if isExplicitHyphen x && isAlphabetic x2 then 1 else 0) +
            hyphenLetterPairs (x2 :: t2) := rfl
      omega

theorem hyphenLetterPairs_concat_nonletter (xs : List ℕ) (c : ℕ)
    (hc : isAlphabetic c = false) :
    hyphenLetterPairs (xs ++ [c]) = hyphenLetterPairs xs := by
  induction xs with
  | nil => rfl
  | cons x t ih =>
    rcases t with _ | ⟨x2, t2⟩
    · show (if isExplicitHyphen x && isAlphabetic c then 1 else 0) +
        hyphenLetterPairs [c] = 0
      rw [hc]
      simp [hyphenLetterPairs]
    · show (if isExplicitHyphen x && isAlphabetic x2 then 1 else 0) +
          hyphenLetterPairs ((x2 :: t2) ++ [c]) =
        (if isExplicitHyphen x && isAlphabetic x2 then 1 else 0) +
          hyphenLetterPairs (x2 :: t2)
      rw [ih]

theorem hyphenLetterPairs_lt (l : List ℕ) (h : l ≠ []) :
    hyphenLetterPairs l < l.length := by
  induction l with
  | nil => exact absurd rfl h
  | cons a t ih =>
    rcases t with _ | ⟨b, t2⟩
    · show 0 < 1
      omega
    · show (if isExplicitHyphen a && isAlphabetic b then 1 else 0) +
          hyphenLetterPairs (b :: t2) < (b :: t2).length + 1
      have := ih (by simp)
      split_ifs <;> omega

theorem hyphenLetterPairs_zero (l : List ℕ) (h : ∀ a ∈ l, isExplicitHyphen a = false) :
    hyphenLetterPairs l = 0 := by
  induction l with
  | nil => rfl
  | cons a t ih =>
    rcases t with _ | ⟨b, t2⟩
    · rfl
    · show (if isExplicitHyphen a && isAlphabetic b then 1 else 0) +
          hyphenLetterPairs (b :: t2) = 0
      rw [h a (by simp)]
      simp only [Bool.false_and, if_neg (by simp : ¬(false = true))]
      rw [ih fun a ha => h a (by simp [ha])]

/-- The count of explicit split positions of a word. -/
def hCount (w : List ℕ) : ℕ :=
  hyphenLetterPairs ((collectCodepoints w).map CodepointInfo.value)

/-- The termination weight of a word in the splitting loop of
computeLineBreaks: zero once the word offers no break offsets. -/
def phiWord (w : List ℕ) : ℕ :=
  if breakOffsets w false = [] then 0 else (2 * hCount w + 1) * w.length

def phiSum (ws : List (List ℕ × ℕ)) : ℕ :=
  (ws.map fun p => phiWord p.1).sum

theorem hCount_lt (w : List ℕ) (h : w ≠ []) : hCount w < w.length := by
  unfold hCount
  rcases w with _ | ⟨b, rest⟩
  · exact absurd rfl h
  obtain ⟨v, t, hne⟩ := collectCodepoints_ne_nil b rest
  have h1 : hyphenLetterPairs ((collectCodepoints (b :: rest)).map CodepointInfo.value) <
      ((collectCodepoints (b :: rest)).map CodepointInfo.value).length := by
    apply hyphenLetterPairs_lt
    rw [hne]
    simp
  have h2 : ((collectCodepoints (b :: rest)).map CodepointInfo.value).length ≤
      (b :: rest).length := by
    rw [List.length_map]
    exact utf8Decode_length_le (b :: rest) 0
  omega

theorem utf8Decode_hyphen (o : ℕ) : utf8Decode [45] o = [⟨45, o⟩] := rfl


/-- Indexing the full decode inside the trimmed block. -/
theorem trimmed_get_full (w : List ℕ) (A B : List CodepointInfo)
    (hAB : collectCodepoints w = A ++ trimmedCps w ++ B) (k : ℕ)
    (hk : k < (trimmedCps w).length) :
    ∃ hfull : A.length + k < (collectCodepoints w).length,
      (collectCodepoints w).get ⟨A.length + k, hfull⟩ = (trimmedCps w).getD k ⟨0, 0⟩ := by
  have hlen := trim_decomp_length w A B hAB
  have hfull : A.length + k < (collectCodepoints w).length := by omega
  refine ⟨hfull, ?_⟩
  have h1 : (collectCodepoints w).get? (A.length + k) =
      some ((trimmedCps w).getD k ⟨0, 0⟩) := by
    rw [hAB, List.append_assoc, List.get?_append_right (by omega),
      show A.length + k - A.length = k by omega,
      List.get?_append hk, List.get?_eq_get hk]
    rw [List.getD, List.get?_eq_get hk]
    rfl
  rw [List.get?_eq_get hfull] at h1
  exact Option.some.inj h1

/-- Splitting a word at the byte offset of its pos-th codepoint splits the
decode; appending a hyphen byte appends one hyphen codepoint. -/
theorem collectCodepoints_split_at (w : List ℕ) (o : ℕ) (pos : ℕ)
    (hpos : pos < (collectCodepoints w).length)
    (hoff : ((collectCodepoints w).get ⟨pos, hpos⟩).byteOffset = o) :
    collectCodepoints (w.take o ++ [45]) =
      (collectCodepoints w).take pos ++ [⟨45, o⟩] ∧
    collectCodepoints (w.take o) = (collectCodepoints w).take pos ∧
    (collectCodepoints (w.drop o)).map CodepointInfo.value =
      ((collectCodepoints w).drop pos).map CodepointInfo.value := by
  obtain ⟨hA, hB⟩ := utf8Decode_split w 0 pos hpos
  have hoz : ((utf8Decode w 0).get ⟨pos, hpos⟩).byteOffset - 0 = o := by
    have : ((utf8Decode w 0).get ⟨pos, hpos⟩).byteOffset = o := hoff
    omega
  rw [hoz] at hA hB
  have hbo : ((utf8Decode w 0).get ⟨pos, hpos⟩).byteOffset = o := hoff
  rw [hbo] at hA hB
  refine ⟨?_, ?_, ?_⟩
  · have := hA [45]
    rw [utf8Decode_hyphen] at this
    exact this
  · have h2 := hA []
    rw [show utf8Decode ([] : List ℕ) o = [] from rfl, List.append_nil] at h2
    unfold collectCodepoints
    simpa using h2
  · have hshift := utf8Decode_shift (w.drop o) o
    have h3 : (utf8Decode (w.drop o) o).map CodepointInfo.value =
        (utf8Decode (w.drop o) 0).map CodepointInfo.value := by
      rw [hshift, List.map_map]
      rfl
    unfold collectCodepoints
    rw [← h3, hB]

/-- Case split of a non-fallback break offset: it is explicit, with a hyphen
codepoint immediately before an alphabetic one at the cut, or the trimmed
word is hyphen-free alphabetic and the offset comes from the language rules. -/
theorem breakOffsets_false_cases (w : List ℕ) (o : ℕ) (ho : o ∈ breakOffsets w false) :
    (∃ pos, ∃ hpos : pos < (collectCodepoints w).length,
        ((collectCodepoints w).get ⟨pos, hpos⟩).byteOffset = o ∧ 1 ≤ pos ∧
        isAlphabetic ((collectCodepoints w).get ⟨pos, hpos⟩).value = true ∧
        ∃ hprev : pos - 1 < (collectCodepoints w).length,
          isExplicitHyphen ((collectCodepoints w).get ⟨pos - 1, hprev⟩).value = true) ∨
    (hasOnlyAlphabetic (trimmedCps w) = true ∧
      ∃ A B idx, collectCodepoints w = A ++ trimmedCps w ++ B ∧
        (∀ c ∈ A, isPunctuation c.value = true) ∧
        (∀ c ∈ B, isPunctuation c.value = true) ∧
        2 ≤ idx ∧ idx + 2 ≤ (trimmedCps w).length ∧
        o = ((trimmedCps w).getD idx ⟨0, 0⟩).byteOffset) := by
  unfold breakOffsets at ho
  by_cases hempty : w.isEmpty
  · rw [if_pos hempty] at ho
    simp at ho
  · rw [if_neg hempty] at ho
    by_cases hshort : (trimmedCps w).length < MIN_PREFIX_CP + MIN_SUFFIX_CP
    · rw [if_pos hshort] at ho
      simp at ho
    · rw [if_neg hshort] at ho
      obtain ⟨A, B, hAB, hApunct, hBpunct⟩ := trim_decomp (collectCodepoints w)
      by_cases hexp : (collectExplicitHyphenIndexes (trimmedCps w)).isEmpty
      · rw [if_neg (by simp [hexp])] at ho
        right
        by_cases halpha : hasOnlyAlphabetic (trimmedCps w)
        · by_cases hnil : (facadeIndexes w false).isEmpty
          · rw [if_pos hnil] at ho
            simp at ho
          · rw [if_neg hnil, List.mem_map] at ho
            obtain ⟨idx, hidx, hov⟩ := ho
            rw [mem_dedupAdj, mem_sortNat] at hidx
            have hbb := mem_facadeIndexes_bounds w false idx hidx
            refine ⟨halpha, A, B, idx, hAB, hApunct, hBpunct, hbb.1, hbb.2, ?_⟩
            rw [← hov]
            unfold byteOffsetForIndex
            rw [if_neg (by omega)]
        · exfalso
          have hfac : facadeIndexes w false = [] := by
            unfold facadeIndexes
            rw [if_neg halpha]
            simp
          rw [if_pos (by simp [hfac])] at ho
          simp at ho
      · rw [if_pos (by simp at hexp ⊢; exact hexp)] at ho
        left
        rw [sortNat_of_pairwise_lt _ (collectExplicitHyphenIndexes_pairwise _),
          dedupAdj_of_pairwise_lt _ (collectExplicitHyphenIndexes_pairwise _),
          List.mem_map] at ho
        obtain ⟨idx, hidx, hov⟩ := ho
        rw [mem_collectExplicitHyphenIndexes] at hidx
        obtain ⟨i, rfl, hi1, hi2, hhyph, halpha1, halpha2⟩ := hidx
        obtain ⟨hfull, hget⟩ := trimmed_get_full w A B hAB (i + 1) hi2
        obtain ⟨hfull2, hget2⟩ := trimmed_get_full w A B hAB i (by omega)
        refine ⟨A.length + (i + 1), hfull, ?_, by omega, ?_, ?_⟩
        · rw [hget, ← hov]
          unfold byteOffsetForIndex
          rw [if_neg (by omega)]
        · rw [hget]
          exact halpha2
        · refine ⟨by omega, ?_⟩
          have heq : (A.length + (i + 1)) - 1 = A.length + i := by omega
          have : (collectCodepoints w).get ⟨A.length + (i + 1) - 1, by omega⟩ =
              (collectCodepoints w).get ⟨A.length + i, hfull2⟩ := by
            congr 1
          rw [this, hget2]
          exact hhyph


/-- In the rule path the whole word is free of hyphen codepoints. -/
theorem rule_no_hyphen (w : List ℕ) (A B : List CodepointInfo)
    (hAB : collectCodepoints w = A ++ trimmedCps w ++ B)
    (hApunct : ∀ c ∈ A, isPunctuation c.value = true)
    (hBpunct : ∀ c ∈ B, isPunctuation c.value = true)
    (halpha : hasOnlyAlphabetic (trimmedCps w) = true) :
    ∀ c ∈ collectCodepoints w, isExplicitHyphen c.value = false := by
  intro c hc
  rw [hAB] at hc
  simp only [List.append_assoc, List.mem_append] at hc
  rcases hc with hc | hc | hc
  · exact isPunctuation_not_hyphen _ (hApunct c hc)
  · unfold hasOnlyAlphabetic at halpha
    simp only [Bool.and_eq_true, List.all_eq_true] at halpha
    exact isAlphabetic_not_hyphen _ (halpha.2 c hc)
  · exact isPunctuation_not_hyphen _ (hBpunct c hc)

/-- The trimmed sequence of the rule-path prefix: the leading punctuation
block, the kept alphabetic block, then the appended hyphen codepoint. -/
theorem rule_prefix_trim (w : List ℕ) (A B : List CodepointInfo) (idx o : ℕ)
    (hAB : collectCodepoints w = A ++ trimmedCps w ++ B)
    (hApunct : ∀ c ∈ A, isPunctuation c.value = true)
    (halpha : hasOnlyAlphabetic (trimmedCps w) = true)
    (hidx1 : 1 ≤ idx) (hidx2 : idx ≤ (trimmedCps w).length)
    (hsplit : collectCodepoints (w.take o ++ [45]) =
      (collectCodepoints w).take (A.length + idx) ++ [⟨45, o⟩]) :
    trimmedCps (w.take o ++ [45]) = (trimmedCps w).take idx ++ [⟨45, o⟩] := by
  have halpha' : ∀ c ∈ trimmedCps w, isAlphabetic c.value = true := by
    unfold hasOnlyAlphabetic at halpha
    simp only [Bool.and_eq_true, List.all_eq_true] at halpha
    exact halpha.2
  have htake : (collectCodepoints w).take (A.length + idx) = A ++ (trimmedCps w).take idx := by
    rw [hAB, List.append_assoc, List.take_append,
      List.take_append_of_le_length hidx2]
  unfold trimmedCps
  have hcc : collectCodepoints (w.take o ++ [45]) =
      A ++ ((trimmedCps w).take idx ++ [⟨45, o⟩]) := by
    rw [hsplit, htake, List.append_assoc]
  rw [hcc]
  have hTne : (trimmedCps w).take idx ≠ [] := by
    have : ((trimmedCps w).take idx).length = idx := by
      rw [List.length_take]
      omega
    intro hcontra
    rw [hcontra] at this
    simp at this
    omega
  apply trim_eq
  · exact hApunct
  · simp
  · intro h
    have hh : ((trimmedCps w).take idx ++ [(⟨45, o⟩ : CodepointInfo)]).head h =
        ((trimmedCps w).take idx).head hTne := by
      rw [List.head_append_of_ne_nil]
    rw [hh]
    have hmem : ((trimmedCps w).take idx).head hTne ∈ trimmedCps w :=
      List.mem_of_mem_take (List.head_mem hTne)
    have ha := halpha' _ hmem
    rw [Bool.eq_false_iff]
    intro hp
    have hna := isPunctuation_not_alpha _ hp
    rw [ha] at hna
    exact absurd hna (by simp)
  · intro h
    have hl : ((trimmedCps w).take idx ++ [(⟨45, o⟩ : CodepointInfo)]).getLast h =
        ⟨45, o⟩ :=
      (List.getLast_eq_iff_getLast_eq_some h).mpr (List.getLast?_concat _)
    rw [hl]
    rfl

/-- The rule-path prefix offers no further break offsets. -/
theorem rule_prefix_unsplittable (w : List ℕ) (o idx : ℕ)
    (htrim : trimmedCps (w.take o ++ [45]) = (trimmedCps w).take idx ++ [⟨45, o⟩])
    (halpha : hasOnlyAlphabetic (trimmedCps w) = true)
    (hidx2 : idx ≤ (trimmedCps w).length) :
    breakOffsets (w.take o ++ [45]) false = [] := by
  have halpha' : ∀ c ∈ trimmedCps w, isAlphabetic c.value = true := by
    unfold hasOnlyAlphabetic at halpha
    simp only [Bool.and_eq_true, List.all_eq_true] at halpha
    exact halpha.2
  have hlen : ((trimmedCps w).take idx).length = idx := by
    rw [List.length_take]
    omega
  have hexp : collectExplicitHyphenIndexes (trimmedCps (w.take o ++ [45])) = [] := by
    rw [htrim]
    by_contra hne
    obtain ⟨j, hj⟩ : ∃ j, j ∈ collectExplicitHyphenIndexes
        ((trimmedCps w).take idx ++ [(⟨45, o⟩ : CodepointInfo)]) := by
      rcases hl : collectExplicitHyphenIndexes
          ((trimmedCps w).take idx ++ [(⟨45, o⟩ : CodepointInfo)]) with _ | ⟨j, t⟩
      · exact absurd hl hne
      · exact ⟨j, by simp [hl]⟩
    rw [mem_collectExplicitHyphenIndexes] at hj
    obtain ⟨i, rfl, hi1, hi2, hhyph, ha1, ha2⟩ := hj
    simp only [List.length_append, List.length_cons, List.length_nil, hlen] at hi2
    have hilt : i < idx := by omega
    have hcpi : cpVal ((trimmedCps w).take idx ++ [(⟨45, o⟩ : CodepointInfo)]) i =
        (((trimmedCps w).take idx).getD i ⟨0, 0⟩).value := by
      unfold cpVal
      rw [List.getD, List.getD, List.get?_append (by omega)]
    rw [hcpi] at hhyph
    have hmem : ((trimmedCps w).take idx).getD i ⟨0, 0⟩ ∈ trimmedCps w :=
      List.mem_of_mem_take (getD_mem_of_lt _ _ _ (by omega))
    have halphai := halpha' _ hmem
    have := isAlphabetic_not_hyphen _ halphai
    rw [this] at hhyph
    exact absurd hhyph (by simp)
  have hnal : hasOnlyAlphabetic (trimmedCps (w.take o ++ [45])) = false := by
    rw [htrim]
    unfold hasOnlyAlphabetic
    have h45 : ((trimmedCps w).take idx ++ [(⟨45, o⟩ : CodepointInfo)]).all
        (fun c => isAlphabetic c.value) = false := by
      rw [List.all_eq_false]
      have h45a : isAlphabetic (45 : ℕ) = false := by decide
      exact ⟨⟨45, o⟩, by simp, by simp [h45a]⟩
    rw [h45]
    simp
  have hfac : facadeIndexes (w.take o ++ [45]) false = [] := by
    unfold facadeIndexes
    rw [hnal]
    simp
  unfold breakOffsets
  by_cases hempty : (w.take o ++ [45]).isEmpty
  · rw [if_pos hempty]
  · rw [if_neg hempty]
    by_cases hshort : (trimmedCps (w.take o ++ [45])).length < MIN_PREFIX_CP + MIN_SUFFIX_CP
    · rw [if_pos hshort]
    · rw [if_neg hshort, if_neg (by simp [hexp]), if_pos (by simp [hfac])]

/-- The last element of a take-prefix is the element just before the cut. -/
theorem getLast_take_eq (l : List ℕ) (k : ℕ) (h1 : 1 ≤ k) (h2 : k ≤ l.length) :
    (l.take k).getLast? = l.get? (k - 1) := by
  rw [List.getLast?_eq_get?, List.length_take, min_eq_left h2,
    List.get?_take (by omega)]

/-- The head of a drop-suffix is the element at the cut. -/
theorem head_drop_eq (l : List ℕ) (n : ℕ) : (l.drop n).head? = l.get? n := by
  rw [List.get?_eq_getElem?, List.head?_eq_getElem?, List.getElem?_drop, Nat.add_zero]

/-- The arithmetic core of the split termination measure. -/
theorem phi_arith (hp ht h o t : ℕ) (hsum : hp + ht + 1 ≤ h) (ho : 1 ≤ o)
    (htt : 1 ≤ t) :
    (2 * hp + 1) * (o + 1) + (2 * ht + 1) * t < (2 * h + 1) * (o + t) := by
  have key : (2 * hp + 1) * (o + 1) + (2 * ht + 1) * t <
      (2 * (hp + ht + 1) + 1) * (o + t) := by nlinarith
  have mono : (2 * (hp + ht + 1) + 1) * (o + t) ≤ (2 * h + 1) * (o + t) :=
    Nat.mul_le_mul_right _ (by omega)
  omega

/-- Splitting a word at any non-fallback break offset strictly decreases the
termination weight: the hyphen-terminated prefix and the tail together weigh
less than the original word. -/
theorem phi_split_decrease (w : List ℕ) (o : ℕ) (ho : o ∈ breakOffsets w false) :
    phiWord (w.take o ++ [45]) + phiWord (w.drop o) < phiWord w := by
  obtain ⟨hwne, h4, idx0, hi1, hi2, hoeq⟩ := mem_breakOffsets_shape w false o ho
  have hob := byteOffsetForIndex_pos_lt w hwne idx0 hi1 hi2
  rw [← hoeq] at hob
  have ho1 : 1 ≤ o := hob.1
  have ho2 : o < w.length := hob.2
  have hne2 : breakOffsets w false ≠ [] := by
    intro hc
    rw [hc] at ho
    simp at ho
  have hphiw : phiWord w = (2 * hCount w + 1) * w.length := by
    unfold phiWord
    rw [if_neg hne2]
  have hlenp : (w.take o ++ [45]).length = o + 1 := by
    rw [List.length_append, List.length_take]
    simp only [List.length_cons, List.length_nil]
    omega
  have hlent : (w.drop o).length = w.length - o := by
    rw [List.length_drop]
  have hboundp : phiWord (w.take o ++ [45]) ≤
      (2 * hCount (w.take o ++ [45]) + 1) * (o + 1) := by
    unfold phiWord
    split_ifs
    · exact Nat.zero_le _
    · rw [hlenp]
  have hboundt : phiWord (w.drop o) ≤
      (2 * hCount (w.drop o) + 1) * (w.length - o) := by
    unfold phiWord
    split_ifs
    · exact Nat.zero_le _
    · rw [hlent]
  rcases breakOffsets_false_cases w o ho with
    ⟨pos, hpos, hoff, hpos1, halpha, hprev, hhyph⟩ |
    ⟨halpha, A, B, idx, hAB, hApunct, hBpunct, hidx2, hidx3, hoeq2⟩
  · -- explicit-hyphen offset: the junction pair is destroyed by the cut
    obtain ⟨hP, hQ, hT⟩ := collectCodepoints_split_at w o pos hpos hoff
    have hcp : hCount (w.take o ++ [45]) =
        hyphenLetterPairs (((collectCodepoints w).map CodepointInfo.value).take pos) := by
      unfold hCount
      rw [hP, List.map_append,
        show ([⟨45, o⟩] : List CodepointInfo).map CodepointInfo.value = [45] from rfl,
        hyphenLetterPairs_concat_nonletter _ _ (by decide), ← List.map_take]
    have hct : hCount (w.drop o) =
        hyphenLetterPairs (((collectCodepoints w).map CodepointInfo.value).drop pos) := by
      unfold hCount
      rw [hT, ← List.map_drop]
    have hlast : (((collectCodepoints w).map CodepointInfo.value).take pos).getLast? =
        some ((collectCodepoints w).get ⟨pos - 1, hprev⟩).value := by
      rw [getLast_take_eq _ pos hpos1 (by rw [List.length_map]; omega),
        List.get?_map, List.get?_eq_get hprev]
      rfl
    have hhead : (((collectCodepoints w).map CodepointInfo.value).drop pos).head? =
        some ((collectCodepoints w).get ⟨pos, hpos⟩).value := by
      rw [head_drop_eq, List.get?_map, List.get?_eq_get hpos]
      rfl
    have hkey := hyphenLetterPairs_append_ge
      (((collectCodepoints w).map CodepointInfo.value).take pos)
      (((collectCodepoints w).map CodepointInfo.value).drop pos)
      ((collectCodepoints w).get ⟨pos - 1, hprev⟩).value
      ((collectCodepoints w).get ⟨pos, hpos⟩).value
      (by rw [Bool.and_eq_true]; exact ⟨hhyph, halpha⟩) hlast hhead
    rw [List.take_append_drop] at hkey
    have hcw : hCount w =
        hyphenLetterPairs ((collectCodepoints w).map CodepointInfo.value) := rfl
    have harith := phi_arith (hCount (w.take o ++ [45])) (hCount (w.drop o))
      (hCount w) o (w.length - o) (by rw [hcp, hct, hcw]; omega) ho1 (by omega)
    have hsum : o + (w.length - o) = w.length := by omega
    rw [hsum] at harith
    rw [hphiw]
    exact lt_of_le_of_lt (Nat.add_le_add hboundp hboundt) harith
  · -- rule offset: the prefix cannot split again and the word is hyphen-free
    obtain ⟨hfull, hget⟩ := trimmed_get_full w A B hAB idx (by omega)
    have hoff : ((collectCodepoints w).get ⟨A.length + idx, hfull⟩).byteOffset = o := by
      rw [hget]
      exact hoeq2.symm
    obtain ⟨hP, hQ, hT⟩ := collectCodepoints_split_at w o (A.length + idx) hfull hoff
    have htrim := rule_prefix_trim w A B idx o hAB hApunct halpha (by omega)
      (by omega) hP
    have hunsplit := rule_prefix_unsplittable w o idx htrim halpha (by omega)
    have hphip : phiWord (w.take o ++ [45]) = 0 := by
      unfold phiWord
      rw [if_pos hunsplit]
    have hnohyph := rule_no_hyphen w A B hAB hApunct hBpunct halpha
    have hcw0 : hCount w = 0 := by
      unfold hCount
      apply hyphenLetterPairs_zero
      intro a ha
      rw [List.mem_map] at ha
      obtain ⟨c, hc, rfl⟩ := ha
      exact hnohyph c hc
    have hct0 : hCount (w.drop o) = 0 := by
      unfold hCount
      apply hyphenLetterPairs_zero
      intro a ha
      rw [hT, List.mem_map] at ha
      obtain ⟨c, hc, rfl⟩ := ha
      exact hnohyph c (List.mem_of_mem_drop hc)
    have hphit : phiWord (w.drop o) ≤ w.length - o := by
      refine le_trans hboundt ?_
      rw [hct0]
      simp
    have hL : 1 ≤ w.length := List.length_pos.mpr hwne
    rw [hphiw, hcw0, hphip]
    have hone : (2 * 0 + 1) * w.length = w.length := by ring
    rw [hone]
    omega

/- ### The enabled-hyphenation layout loop -/

/-- Sum of the stored word widths over the index range [a, b). -/
def sumWseg (ww : List ℕ) (a b : ℕ) : ℤ :=
  sumW ((ww.drop a).take (b - a))

/-- The prefix budget offered to the word following a finalized line (lines
240-256 of ParsedText::computeLineBreaks). -/
def splitBudget (P s : ℤ) (ww : List ℕ) (lastBreakAt lineBreak : ℕ) : ℤ :=
  P - (sumWseg ww lastBreakAt lineBreak +
      (if 0 < lineBreak - lastBreakAt then ((lineBreak - lastBreakAt : ℕ) : ℤ) - 1
        else 0) * s) -
    (if lineBreak - lastBreakAt = 0 then 0 else s)

/-- The split-search pass over the finalized breaks (the for-loop of
ParsedText::computeLineBreaks lines 237-295): find the first non-final line
whose leftover budget lets the following word split, skipping lines whose
budget is exhausted or whose word offers no fitting candidate. -/
def findSplitGo (mw : ℕ → List ℕ → ℤ) (P s : ℤ) (queue : List (List ℕ × ℕ))
    (ww : List ℕ) : List ℕ → ℕ → Option (ℕ × (List ℕ × ℕ) × ℕ × ℕ)
  | [], _ => none
  | lineBreak :: rest, lastBreakAt =>
    if rest.isEmpty || decide (ww.length ≤ lineBreak) then
      findSplitGo mw P s queue ww rest lineBreak
    else if splitBudget P s ww lastBreakAt lineBreak ≤ 0 then
      findSplitGo mw P s queue ww rest lineBreak
    else
      match queue.get? lineBreak with
      | none => none
      | some (wd, st) =>
        match chooseSplitForWidth (mw st) wd
            (splitBudget P s ww lastBreakAt lineBreak) false with
        | none => findSplitGo mw P s queue ww rest lineBreak
        | some (o, pw) =>
          if (wd.drop o).isEmpty then findSplitGo mw P s queue ww rest lineBreak
          else some (lineBreak, (wd, st), o, pw)

/-- Guard-index shifting after an insertion (shiftGuardIndices). -/
def shiftGuards (gs : List (ℕ × ℕ)) (insertPos : ℕ) : List (ℕ × ℕ) :=
  gs.map fun g =>
    (if insertPos ≤ g.1 then g.1 + 1 else g.1,
     if insertPos ≤ g.2 then g.2 + 1 else g.2)

/-- The while-true loop of ParsedText::computeLineBreaks with hyphenation
enabled: run the DP, look for a split, and on success replace the word
behind the break by its hyphen-terminated head plus tail, patch the stored
widths, shift the guards and record a new guard pair. -/
def lineBreaksAux (mw : ℕ → List ℕ → ℤ) (P s : ℤ) :
    ℕ → List (List ℕ × ℕ) → List ℕ → List (ℕ × ℕ) → Option (List ℕ)
  | 0, _, _, _ => none
  | fuel + 1, queue, ww, gs =>
    match findSplitGo mw P s queue ww (runDp P s gs ww) 0 with
    | none => some (runDp P s gs ww)
    | some (lineBreak, (wd, st), o, pw) =>
      lineBreaksAux mw P s fuel
        (queue.take lineBreak ++ [(wd.take o ++ [45], st), (wd.drop o, st)] ++
          queue.drop (lineBreak + 1))
        (ww.take lineBreak ++ [pw, ((mw st) (wd.drop o) % 65536).toNat] ++
          ww.drop (lineBreak + 1))
        (shiftGuards gs lineBreak ++ [(lineBreak, lineBreak + 1)])

/-- ParsedText::computeLineBreaks with hyphenation enabled, run with fuel one
more than the termination weight of the queue. -/
def computeLineBreaksEnabled (mw : ℕ → List ℕ → ℤ) (P s : ℤ)
    (queue : List (List ℕ × ℕ)) (ww : List ℕ) : Option (List ℕ) :=
  if queue.isEmpty then some []
  else lineBreaksAux mw P s (phiSum queue + 1) queue ww []

theorem mem_of_mem_takeWhileNat (p : ℕ → Bool) (l : List ℕ) (x : ℕ)
    (h : x ∈ l.takeWhile p) : x ∈ l := by
  induction l with
  | nil => simp [List.takeWhile] at h
  | cons a t ih =>
    rw [List.takeWhile_cons] at h
    by_cases hpa : p a
    · rw [if_pos hpa] at h
      rcases List.mem_cons.mp h with rfl | h2
      · exact List.mem_cons_self _ _
      · exact List.mem_cons_of_mem _ (ih h2)
    · rw [if_neg hpa] at h
      simp at h

/-- A successful chooseSplitForWidth only ever reports a candidate offset. -/
theorem chooseSplitForWidth_mem (mw : List ℕ → ℤ) (word : List ℕ) (aw : ℤ)
    (fb : Bool) (o pw : ℕ)
    (h : chooseSplitForWidth mw word aw fb = some (o, pw)) :
    o ∈ breakOffsets word fb := by
  unfold chooseSplitForWidth at h
  split_ifs at h
  rw [chooseScan_eq] at h
  rcases hg : ((breakOffsets word fb).takeWhile
      fun o => decide (mw (word.take o) ≤ aw - mw [45])).getLast? with _ | y
  · rw [hg] at h
    simp [Option.elim] at h
  · rw [hg] at h
    simp only [Option.elim, Option.some.injEq, Prod.mk.injEq] at h
    obtain ⟨rfl, -⟩ := h
    exact mem_of_mem_takeWhileNat _ _ _ (mem_of_getLast_some _ _ hg)

/-- Whatever split the search pass reports really is the word stored at the
break index together with one of its candidate offsets. -/
theorem findSplitGo_some (mw : ℕ → List ℕ → ℤ) (P s : ℤ)
    (queue : List (List ℕ × ℕ)) (ww : List ℕ) :
    ∀ (bks : List ℕ) (lastB lineBreak : ℕ) (wd : List ℕ) (st o pw : ℕ),
      findSplitGo mw P s queue ww bks lastB = some (lineBreak, (wd, st), o, pw) →
      queue.get? lineBreak = some (wd, st) ∧ o ∈ breakOffsets wd false := by
  intro bks
  induction bks with
  | nil =>
    intro lastB lineBreak wd st o pw h
    exact absurd h (by simp [findSplitGo])
  | cons b rest ih =>
    intro lastB lineBreak wd st o pw h
    unfold findSplitGo at h
    split_ifs at h with h1 h2
    · exact ih _ _ _ _ _ _ h
    · exact ih _ _ _ _ _ _ h
    · rcases hq : queue.get? b with _ | ⟨wd2, st2⟩
      · rw [hq] at h
        simp at h
      · rw [hq] at h
        simp only [] at h
        rcases hc : chooseSplitForWidth (mw st2) wd2
            (splitBudget P s ww lastB b) false with _ | ⟨o2, pw2⟩
        · rw [hc] at h
          simp only [] at h
          exact ih _ _ _ _ _ _ h
        · rw [hc] at h
          simp only [] at h
          split_ifs at h with h3
          · exact ih _ _ _ _ _ _ h
          · simp only [Option.some.injEq, Prod.mk.injEq] at h
            obtain ⟨rfl, ⟨rfl, rfl⟩, rfl, rfl⟩ := h
            exact ⟨hq, chooseSplitForWidth_mem _ _ _ _ _ _ hc⟩

theorem phiSum_append (a b : List (List ℕ × ℕ)) :
    phiSum (a ++ b) = phiSum a + phiSum b := by
  unfold phiSum
  rw [List.map_append, List.sum_append]

theorem phiSum_cons (x : List ℕ × ℕ) (b : List (List ℕ × ℕ)) :
    phiSum (x :: b) = phiWord x.1 + phiSum b := by
  unfold phiSum
  rw [List.map_cons, List.sum_cons]

/-- The split surgery strictly decreases the queue's termination weight. -/
theorem phiSum_surgery (queue : List (List ℕ × ℕ)) (k : ℕ) (wd : List ℕ) (st : ℕ)
    (hget : queue.get? k = some (wd, st)) (o : ℕ) (ho : o ∈ breakOffsets wd false) :
    phiSum (queue.take k ++ [(wd.take o ++ [45], st), (wd.drop o, st)] ++
      queue.drop (k + 1)) < phiSum queue := by
  have hk : k < queue.length := by
    by_contra hk
    rw [List.get?_eq_none.mpr (by omega)] at hget
    simp at hget
  have hqk : queue.get ⟨k, hk⟩ = (wd, st) := by
    rw [List.get?_eq_get hk] at hget
    exact Option.some.inj hget
  have hdrop : queue.drop k = (wd, st) :: queue.drop (k + 1) := by
    rw [List.drop_eq_get_cons hk, hqk]
  have hq : queue = queue.take k ++ ((wd, st) :: queue.drop (k + 1)) := by
    conv_lhs => rw [← List.take_append_drop k queue]
    rw [hdrop]
  have hsplit := phi_split_decrease wd o ho
  conv_rhs => rw [hq]
  simp only [List.cons_append, List.nil_append, phiSum_append, phiSum_cons]
  have hnil : phiSum ([] : List (List ℕ × ℕ)) = 0 := rfl
  omega

theorem reconGo_length_le (ansF : ℕ → ℕ) (n : ℕ) :
    ∀ (m cwi : ℕ), (reconGo ansF n cwi m).length ≤ m := by
  intro m
  induction m with
  | zero =>
    intro cwi
    simp [reconGo]
  | succ k ih =>
    intro cwi
    unfold reconGo
    split_ifs
    · simp only [List.length_cons]
      exact Nat.succ_le_succ (ih _)
    · simp

theorem runDp_length_le (P s : ℤ) (gs : List (ℕ × ℕ)) (ww : List ℕ) :
    (runDp P s gs ww).length ≤ 1000 := by
  unfold runDp
  exact reconGo_length_le _ _ 1000 0

/-- Fuel exceeding the queue's termination weight makes the layout loop
finish. -/
theorem lineBreaksAux_terminates (mw : ℕ → List ℕ → ℤ) (P s : ℤ) :
    ∀ (fuel : ℕ) (queue : List (List ℕ × ℕ)) (ww : List ℕ) (gs : List (ℕ × ℕ)),
      phiSum queue < fuel →
      ∃ breaks, lineBreaksAux mw P s fuel queue ww gs = some breaks ∧
        breaks.length ≤ 1000 := by
  intro fuel
  induction fuel with
  | zero =>
    intro queue ww gs h
    exact absurd h (by omega)
  | succ k ih =>
    intro queue ww gs h
    rcases hf : findSplitGo mw P s queue ww (runDp P s gs ww) 0 with
      _ | ⟨lineBreak, ⟨wd, st⟩, o, pw⟩
    · refine ⟨runDp P s gs ww, ?_, runDp_length_le P s gs ww⟩
      unfold lineBreaksAux
      rw [hf]
    · obtain ⟨hget, hmem⟩ := findSplitGo_some mw P s queue ww _ _ _ _ _ _ _ hf
      have hdec := phiSum_surgery queue lineBreak wd st hget o hmem
      obtain ⟨breaks, hb, hlen⟩ := ih
        (queue.take lineBreak ++ [(wd.take o ++ [45], st), (wd.drop o, st)] ++
          queue.drop (lineBreak + 1))
        (ww.take lineBreak ++ [pw, ((mw st) (wd.drop o) % 65536).toNat] ++
          ww.drop (lineBreak + 1))
        (shiftGuards gs lineBreak ++ [(lineBreak, lineBreak + 1)])
        (by omega)
      refine ⟨breaks, ?_, hlen⟩
      unfold lineBreaksAux
      rw [hf]
      exact hb

/-- C3: for every finite word queue, stored width list and positive page
width, the hyphenation-enabled layout loop of ParsedText::computeLineBreaks
terminates - fuel one more than the queue's termination weight suffices and
yields a result - and the produced break list never exceeds the hard cap of
1000 lines; moreover every reconstruction pass is capped at 1000 breaks, and
a pass whose line budget is exhausted emits no further break even while
words remain. -/
theorem layout_terminates_capped (mw : ℕ → List ℕ → ℤ) (P s : ℤ) (hP : 0 < P)
    (queue : List (List ℕ × ℕ)) (ww : List ℕ) :
    (∃ breaks, computeLineBreaksEnabled mw P s queue ww = some breaks ∧
      breaks.length ≤ 1000) ∧
    (∀ (gs : List (ℕ × ℕ)) (ww2 : List ℕ), (runDp P s gs ww2).length ≤ 1000) ∧
    (∀ (ansF : ℕ → ℕ) (n cwi : ℕ), reconGo ansF n cwi 0 = []) := by
  refine ⟨?_, ?_, ?_⟩
  · unfold computeLineBreaksEnabled
    split_ifs with hq
    · exact ⟨[], rfl, by simp⟩
    · exact lineBreaksAux_terminates mw P s _ queue ww [] (by omega)
  · intro gs ww2
    exact runDp_length_le P s gs ww2
  · intro ansF n cwi
    rfl

/-- C4 (amended): a successful hyphenation split - Hyphenator::splitWord of
the old engine returning a head and tail, or the split construction of
ParsedText::calculateWordWidths / ParsedText::computeLineBreaks building the
head and tail of a chooseSplitForWidth decision - always yields a non-empty
head ending in a '-' byte such that the head with one trailing hyphen
removed, concatenated with the non-empty tail, is the original word
byte-for-byte; in particular the splits of "beautiful" and "привет" under a
10-pixels-per-byte measure give the heads "beau-" and "при-", each ending in
exactly one hyphen. -/
theorem splitWord_recombination :
    (∀ (mw : List ℕ → ℤ) (w : List ℕ) (avail : ℤ) (force : Bool) (head tail : List ℕ),
      OldHyph.splitWord mw w avail force = some (head, tail) →
      head ≠ [] ∧ head.getLast? = some 45 ∧ head.dropLast ++ tail = w ∧ tail ≠ []) ∧
    (∀ (mw : List ℕ → ℤ) (w : List ℕ) (avail : ℤ) (fb : Bool) (o pw : ℕ),
      chooseSplitForWidth mw w avail fb = some (o, pw) →
      w.take o ++ [45] ≠ [] ∧ (w.take o ++ [45]).getLast? = some 45 ∧
        (w.take o ++ [45]).dropLast ++ w.drop o = w ∧ w.drop o ≠ []) ∧
    OldHyph.splitWord (fun bs : List ℕ => (10 * bs.length : ℤ))
        [98, 101, 97, 117, 116, 105, 102, 117, 108] 50 false =
      some ([98, 101, 97, 117, 45], [116, 105, 102, 117, 108]) ∧
    OldHyph.splitWord (fun bs : List ℕ => (10 * bs.length : ℤ))
        [208, 191, 209, 128, 208, 184, 208, 178, 208, 181, 209, 130] 100 false =
      some ([208, 191, 209, 128, 208, 184, 45], [208, 178, 208, 181, 209, 130]) := by
  refine ⟨?_, ?_, by decide, by decide⟩
  · intro mw w avail force head tail h
    unfold OldHyph.splitWord at h
    split_ifs at h with h1 h2 h3
    split at h
    · simp at h
    · split_ifs at h with hguard
      simp only [Option.some.injEq, Prod.mk.injEq] at h
      obtain ⟨hh, ht⟩ := h
      push_neg at hguard
      obtain ⟨hg1, hg2⟩ := hguard
      rw [OldHyph.slice_to_end] at hg2 ht
      refine ⟨by rw [← hh]; simp, ?_, ?_, ?_⟩
      · rw [← hh]
        exact List.getLast?_concat _
      · rw [← hh, ← ht, List.dropLast_concat, List.take_append_drop]
      · rw [← ht]
        exact hg2
  · intro mw w avail fb o pw h
    have hmem := chooseSplitForWidth_mem mw w avail fb o pw h
    obtain ⟨hwne, h4, idx, h1, h2, hoeq⟩ := mem_breakOffsets_shape w fb o hmem
    have hob := byteOffsetForIndex_pos_lt w hwne idx h1 h2
    rw [← hoeq] at hob
    refine ⟨by simp, List.getLast?_concat _, ?_, ?_⟩
    · rw [List.dropLast_concat, List.take_append_drop]
    · intro hc
      have hl : (w.drop o).length = w.length - o := List.length_drop o w
      rw [hc] at hl
      simp at hl
      omega

/-- Witness for C4: recombination of the old engine's "beautiful" split and
of the live-site head/tail construction on "hello" at offset 3. -/
theorem splitWord_recombination_witness :
    ([98, 101, 97, 117, 45].dropLast ++ [116, 105, 102, 117, 108] =
      [98, 101, 97, 117, 116, 105, 102, 117, 108]) ∧
    (([104, 101, 108, 108, 111].take 3 ++ [45]).dropLast ++
        [104, 101, 108, 108, 111].drop 3 = [104, 101, 108, 108, 111]) :=
  ⟨(splitWord_recombination.1 (fun bs : List ℕ => (10 * bs.length : ℤ))
      [98, 101, 97, 117, 116, 105, 102, 117, 108] 50 false
      [98, 101, 97, 117, 45] [116, 105, 102, 117, 108]
      splitWord_recombination.2.2.1).2.2.1,
   (splitWord_recombination.2.1 (fun bs : List ℕ => (10 * bs.length : ℤ))
      [104, 101, 108, 108, 111] 45 true 3 40 (by decide)).2.2.1⟩

/-- Witness for C3: a two-byte word queue at page width 5. -/
theorem layout_terminates_capped_witness :
    (0 : ℤ) < 5 ∧
    ((∃ breaks,
        computeLineBreaksEnabled (fun _ w => (w.length : ℤ)) 5 1
          [([104, 105], 0)] [2] = some breaks ∧ breaks.length ≤ 1000) ∧
      (∀ (gs : List (ℕ × ℕ)) (ww2 : List ℕ),
        (runDp 5 1 gs ww2).length ≤ 1000) ∧
      (∀ (ansF : ℕ → ℕ) (n cwi : ℕ), reconGo ansF n cwi 0 = [])) :=
  ⟨by decide,
    layout_terminates_capped (fun _ w => (w.length : ℤ)) 5 1 (by decide)
      [([104, 105], 0)] [2]⟩

end Crosspoint
